import Mathlib

/-!
Verification of the streaming ZIP combiner of the Marbleland repository
(`generateZip` and `MissionZipStream` in the zip/stream module).

Byte buffers are modelled as `List Nat` with every stored byte reduced
modulo 256 at the point where the source writes it (`DataView.setUintN`
semantics).  Reads that would be out of range throw a `RangeError` in
JavaScript and are therefore modelled as `Option.none`.
-/

namespace Marbleland

/-- A byte buffer (JS `Uint8Array` / `ArrayBuffer`). -/
abbrev Bytes := List Nat

/-- Little-endian encoding of a 16-bit value (`DataView.setUint16(·, n, true)`). -/
def u16le (n : Nat) : Bytes := [n % 256, n / 256 % 256]

/-- Little-endian encoding of a 32-bit value (`DataView.setUint32(·, n, true)`). -/
def u32le (n : Nat) : Bytes :=
  [n % 256, n / 256 % 256, n / 2 ^ 16 % 256, n / 2 ^ 24 % 256]

/-- Value of a little-endian byte list. -/
def leVal : Bytes → Nat
  | [] => 0
  | b :: rest => b + 256 * leVal rest

/-- Value of a big-endian byte list. -/
def beVal (bs : Bytes) : Nat := bs.foldl (fun a b => 256 * a + b) 0

/-- `DataView.getUint16(pos, true)`; `none` models the JS `RangeError`. -/
def readU16le (buf : Bytes) (pos : Nat) : Option Nat :=
  if pos + 2 ≤ buf.length then some (leVal ((buf.drop pos).take 2)) else none

/-- `DataView.getUint32(pos, true)`; `none` models the JS `RangeError`. -/
def readU32le (buf : Bytes) (pos : Nat) : Option Nat :=
  if pos + 4 ≤ buf.length then some (leVal ((buf.drop pos).take 4)) else none

/-- `DataView.getUint32(pos, false)` (big-endian); `none` models the JS `RangeError`. -/
def readU32be (buf : Bytes) (pos : Nat) : Option Nat :=
  if pos + 4 ≤ buf.length then some (beVal ((buf.drop pos).take 4)) else none

/-- `DataView.setUint32(pos, v, true)`: replaces the four bytes at `pos`
with the little-endian encoding of `v` (truncated modulo `2^32`). -/
def writeU32le (buf : Bytes) (pos : Nat) (v : Nat) : Bytes :=
  buf.take pos ++ u32le v ++ buf.drop (pos + 4)

@[simp] theorem u16le_length (n : Nat) : (u16le n).length = 2 := rfl

@[simp] theorem u32le_length (n : Nat) : (u32le n).length = 4 := rfl

theorem leVal_u16le (n : Nat) : leVal (u16le n) = n % 2 ^ 16 := by
  simp only [u16le, leVal]
  omega

theorem leVal_u32le (n : Nat) : leVal (u32le n) = n % 2 ^ 32 := by
  simp only [u32le, leVal]
  omega

theorem u32le_mod (n : Nat) : u32le (n % 2 ^ 32) = u32le n := by
  simp only [u32le, List.cons.injEq, and_true]
  omega

/-- ASCII lower-casing of one byte, the effect of JS `toLowerCase` on the
ASCII canonical paths used as deduplication keys. -/
def lowerByte (b : Nat) : Nat := if 65 ≤ b ∧ b ≤ 90 then b + 32 else b

/-- `normalized.toLowerCase()` on a byte string. -/
def lowerBytes (s : Bytes) : Bytes := s.map lowerByte

/-- Modelled from the spec: the `Mission` class (`server/ts/mission.ts`, which
is not under `src/`).  Per §3 and §6 a mission owns its ordered declared
dependency path strings, `normalizeDependency(dep) → canonical relative path
string`, `findPath(dependency) → absolute file path | null`, and `fileSizes`
positionally aligned with `dependencies`; a falsy `fileSizes` is
`Option.none`.  Paths are byte strings, so `Buffer.byteLength` is
`List.length`. -/
structure Mission where
  dependencies : List Bytes
  normalizeDependency : Bytes → Bytes
  findPath : Bytes → Option Bytes
  fileSizes : Option (List Nat)

/-- Modelled from the spec: the ambient collaborators that are not under
`src/`: the file system (`fs.createReadStream(fullPath)` yields the bytes of
the file at a full path) and the fixed excluded-path sets `structureMBGSet` /
`structurePQSet` from `globals` (§3: "a fixed, externally-supplied set of
canonical paths", queried with lower-cased canonical paths). -/
structure Env where
  fsys : Bytes → Bytes
  structureMBGSet : List Bytes
  structurePQSet : List Bytes

/-- The exclusion mode `'none' | 'gold' | 'platinumquest'`. -/
inductive Assuming where
  | none
  | gold
  | platinumquest
deriving DecidableEq

/-- Modelled from the spec: the fixed 30-byte local file header produced by
the external Archive Builder (jszip, §2/§6): signature, version, flags,
method (store), time, date, CRC (abstracted as zero), compressed and
uncompressed sizes, name length, zero extra-field length. -/
def localHeader (name content : Bytes) : Bytes :=
  [0x50, 0x4b, 0x03, 0x04] ++ u16le 20 ++ u16le 0 ++ u16le 0 ++ u16le 0 ++ u16le 0 ++
    u32le 0 ++ u32le content.length ++ u32le content.length ++ u16le name.length ++ u16le 0

/-- One local file entry: header, file name, stored file data. -/
def localEntry (name content : Bytes) : Bytes :=
  localHeader name content ++ name ++ content

/-- Region of all local file entries, in entry order. -/
def localPart : List (Bytes × Bytes) → Bytes
  | [] => []
  | (n, c) :: rest => localEntry n c ++ localPart rest

/-- First 28 bytes of a 46-byte central directory header: everything before
the file-name-length field at byte 28. -/
def cdPre (content : Bytes) : Bytes :=
  [0x50, 0x4b, 0x01, 0x02] ++ u16le 20 ++ u16le 20 ++ u16le 0 ++ u16le 0 ++ u16le 0 ++
    u16le 0 ++ u32le 0 ++ u32le content.length ++ u32le content.length

/-- A central directory entry: 46-byte header — with the file-name length at
byte 28, extra-field length at byte 30 and comment length at byte 32 (both
zero for the builder), and the local-header offset at byte 42 — followed by
the file name. -/
def cdEntry (name content : Bytes) (off : Nat) : Bytes :=
  cdPre content ++ u16le name.length ++ u16le 0 ++ u16le 0 ++ u16le 0 ++ u16le 0 ++
    u32le 0 ++ u32le off ++ name

/-- Central directory region for the given entries; the first entry's local
header lies at offset `base` of the archive. -/
def cdPart : List (Bytes × Bytes) → Nat → Bytes
  | [], _ => []
  | (n, c) :: rest, base => cdEntry n c base ++ cdPart rest (base + (localEntry n c).length)

/-- A 22-byte end-of-central-directory record: signature, two zero disk
fields, the two entry counts, central directory size, central directory
offset, zero comment length.  The field layout mirrors both the builder's
record and the record synthesized at the end of `generateZip`. -/
def eocdRecord (count cdSize cdOffset : Nat) : Bytes :=
  [0x50, 0x4b, 0x05, 0x06] ++ u16le 0 ++ u16le 0 ++ u16le count ++ u16le count ++
    u32le cdSize ++ u32le cdOffset ++ u16le 0

/-- Modelled from the spec: the external Archive Builder (§2/§6) applied to
the registered entries: it "produces a single valid ZIP byte buffer
containing exactly those entries" — all local entries, then the central
directory, then one end record (directory entries are already absent: the
builder model registers plain file entries only, matching the
directory-entry removal step of `generateZip`). -/
def buildZip (entries : List (Bytes × Bytes)) : Bytes :=
  localPart entries ++ cdPart entries 0 ++
    eocdRecord entries.length (cdPart entries 0).length (localPart entries).length

/-- The dependency loop of `generateZip` for one mission: threads the
`includedFiles` JS `Set` (modelled by its insertion-ordered element list) and
returns the `(canonical name, file bytes)` pairs registered on the jszip
instance, in registration order. -/
def collectDeps (env : Env) (assuming : Assuming) (m : Mission) :
    List Bytes → List Bytes → List (Bytes × Bytes) × List Bytes
  | [], included => ([], included)
  | dep :: rest, included =>
    let normalized := m.normalizeDependency dep
    if included.contains normalized then
      collectDeps env assuming m rest included
    else if assuming = Assuming.gold ∧ env.structureMBGSet.contains (lowerBytes normalized) then
      collectDeps env assuming m rest included
    else if assuming = Assuming.platinumquest ∧
        env.structurePQSet.contains (lowerBytes normalized) then
      collectDeps env assuming m rest included
    else
      match m.findPath dep with
      | some fullPath =>
        let res := collectDeps env assuming m rest (included ++ [normalized])
        ((normalized, env.fsys fullPath) :: res.1, res.2)
      | Option.none => collectDeps env assuming m rest included

/-- The backward scan `for (let i = generated.byteLength - 4; i >= 0; i--)`
that compares the big-endian 32-bit read at `i` against `0x504b0506`. -/
def scanEOCD (buf : Bytes) : Nat → Option Nat
  | 0 => if readU32be buf 0 = some 0x504b0506 then some 0 else Option.none
  | i + 1 =>
    if readU32be buf (i + 1) = some 0x504b0506 then some (i + 1) else scanEOCD buf i

/-- Where the backward scan stops; the loop body never runs when
`byteLength - 4` is negative. -/
def findEOCD (buf : Bytes) : Option Nat :=
  if 4 ≤ buf.length then scanEOCD buf (buf.length - 4) else Option.none

/-- The `while (index < centralDirectory.byteLength)` loop that adds
`mainPartLength` to the local-header-offset field at byte `0x2a` of each
entry and advances by `0x2e` plus the three variable lengths read at bytes
`0x1c`, `0x1e`, `0x20`.  `fuel` only bounds the number of iterations (each
iteration advances `index` by at least `0x2e`, so `cd.length + 1` iterations
are never exhausted); a `none` models a JS `RangeError` on an out-of-range
`DataView` access. -/
def patchCDLoop (prior : Nat) : Nat → Nat → Bytes → Option Bytes
  | 0, _, _ => Option.none
  | fuel + 1, index, cd =>
    if index < cd.length then
      match readU32le cd (index + 0x2a) with
      | some offsetLocalHeader =>
        let cd1 := writeU32le cd (index + 0x2a) (offsetLocalHeader + prior)
        match readU16le cd1 (index + 0x1c), readU16le cd1 (index + 0x1e),
            readU16le cd1 (index + 0x20) with
        | some fileNameLen, some extraFieldLen, some fileCommentLen =>
          patchCDLoop prior fuel
            (index + 0x2e + fileNameLen + extraFieldLen + fileCommentLen) cd1
        | _, _, _ => Option.none
      | Option.none => Option.none
    else
      some cd

/-- Offset-fixing pass over one mission's central directory buffer. -/
def patchCD (prior : Nat) (cd : Bytes) : Option Bytes :=
  patchCDLoop prior (cd.length + 1) 0 cd

/-- The mutable state of one `generateZip` run: the pending central directory
buffers, `centralDirectorySizeTotal`, `mainPartLength`, `includedFiles`. -/
structure GenState where
  centralDirectories : List Bytes
  centralDirectorySizeTotal : Nat
  mainPartLength : Nat
  includedFiles : List Bytes

def initState : GenState := ⟨[], 0, 0, []⟩

/-- The body of the per-mission loop of `generateZip`: register the
dependencies, build the sub-archive, scan backward for the end record, split
off and emit the main part, patch and stash the central directory.  When the
scan finds nothing the mission emits nothing (the `for` loop just ends);
`none` models a thrown `RangeError`. -/
def processMission (env : Env) (assuming : Assuming) (st : GenState) (m : Mission) :
    Option (List Bytes × GenState) :=
  let res := collectDeps env assuming m m.dependencies st.includedFiles
  let generated := buildZip res.1
  match findEOCD generated with
  | Option.none => some ([], { st with includedFiles := res.2 })
  | some i =>
    match readU32le generated (i + 16) with
    | Option.none => Option.none
    | some startOfCentralDirectoryOffset =>
      let mainPart := generated.take startOfCentralDirectoryOffset
      let centralDirectory :=
        (generated.drop startOfCentralDirectoryOffset).take (i - startOfCentralDirectoryOffset)
      match patchCD st.mainPartLength centralDirectory with
      | Option.none => Option.none
      | some patched =>
        some ([mainPart],
          { centralDirectories := st.centralDirectories ++ [patched]
            centralDirectorySizeTotal := st.centralDirectorySizeTotal + centralDirectory.length
            mainPartLength := st.mainPartLength + mainPart.length
            includedFiles := res.2 })

/-- The mission loop of `generateZip`, collecting every yielded chunk. -/
def genLoop (env : Env) (assuming : Assuming) :
    List Mission → GenState → Option (List Bytes × GenState)
  | [], st => some ([], st)
  | m :: rest, st =>
    match processMission env assuming st m with
    | Option.none => Option.none
    | some res =>
      match genLoop env assuming rest res.2 with
      | Option.none => Option.none
      | some res1 => some (res.1 ++ res1.1, res1.2)

/-- `generateZip(missions, assuming)`: iterate `missions.slice().reverse()`,
then yield the pending central directories, then the synthesized end record.
The result is the finite list of all yielded chunks; `none` models an
aborted (thrown) run. -/
def generateZip (env : Env) (missions : List Mission) (assuming : Assuming) :
    Option (List Bytes) :=
  match genLoop env assuming missions.reverse initState with
  | Option.none => Option.none
  | some res =>
    some (res.1 ++ res.2.centralDirectories ++
      [eocdRecord res.2.includedFiles.length res.2.centralDirectorySizeTotal
        res.2.mainPartLength])

/-- The dependency loop of `MissionZipStream.init`: `sizes` is the not yet
consumed tail of `mission.fileSizes`, so its head is `fileSizes[j]` for the
`j` that the source increments once per dependency (a missing element is
modelled as 0). -/
def estimateDeps (env : Env) (assuming : Assuming) (m : Mission) :
    List Bytes → List Nat → List Bytes → Nat × List Bytes
  | [], _, included => (0, included)
  | dep :: rest, sizes, included =>
    let normalized := m.normalizeDependency dep
    if included.contains normalized then
      estimateDeps env assuming m rest sizes.tail included
    else if assuming = Assuming.gold ∧ env.structureMBGSet.contains (lowerBytes normalized) then
      estimateDeps env assuming m rest sizes.tail included
    else if assuming = Assuming.platinumquest ∧
        env.structurePQSet.contains (lowerBytes normalized) then
      estimateDeps env assuming m rest sizes.tail included
    else
      let size := sizes.headD 0
      let res := estimateDeps env assuming m rest sizes.tail (included ++ [normalized])
      (size + 0x1e + 0x2e + normalized.length * 2 + res.1, res.2)

/-- The mission loop of `MissionZipStream.init`
(`for (let i = this.missions.length - 1; i >= 0; i--)`), as a fold over the
reversed list; the periodic `setImmediate` yield is a scheduling no-op. -/
def estimateLoop (env : Env) (assuming : Assuming) : List Mission → List Bytes → Nat × List Bytes
  | [], included => (0, included)
  | m :: rest, included =>
    let res := estimateDeps env assuming m m.dependencies (m.fileSizes.getD []) included
    let res1 := estimateLoop env assuming rest res.2
    (res.1 + res1.1, res1.2)

/-- `MissionZipStream.init`'s precomputed `expectedSize` for an
already-filtered mission list: the walk plus the `0x16`-byte end record. -/
def expectedSizeOf (env : Env) (missions : List Mission) (assuming : Assuming) : Nat :=
  (estimateLoop env assuming missions.reverse []).1 + 0x16

/-- The constructor filter `missions.filter(x => x.fileSizes)` (an empty
array is truthy in JS, so only a missing `fileSizes` is dropped). -/
def filterMissions (missions : List Mission) : List Mission :=
  missions.filter fun x => x.fileSizes.isSome

/-- `expectedSize` as computed by a `MissionZipStream` built on `missions`:
the constructor filters first, `init` then walks `this.missions`. -/
def streamExpectedSize (env : Env) (missions : List Mission) (assuming : Assuming) : Nat :=
  expectedSizeOf env (filterMissions missions) assuming

/-- The chunk sequence produced by a `MissionZipStream` built on `missions`:
the constructor filters first, the generator then runs on `this.missions`. -/
def streamChunks (env : Env) (missions : List Mission) (assuming : Assuming) :
    Option (List Bytes) :=
  generateZip env (filterMissions missions) assuming

/-- Entries registered by one mission, given the current included set. -/
def missionEntries (env : Env) (assuming : Assuming) (m : Mission) (included : List Bytes) :
    List (Bytes × Bytes) :=
  (collectDeps env assuming m m.dependencies included).1

/-- Per-mission entry lists along a (already reversed) mission list. -/
def entriesPlan (env : Env) (assuming : Assuming) :
    List Mission → List Bytes → List (List (Bytes × Bytes))
  | [], _ => []
  | m :: rest, included =>
    let res := collectDeps env assuming m m.dependencies included
    res.1 :: entriesPlan env assuming rest res.2

/-- All entries of the combined archive, in emission order. -/
def allEntries (env : Env) (missions : List Mission) (assuming : Assuming) :
    List (Bytes × Bytes) :=
  (entriesPlan env assuming missions.reverse []).flatten

/-- Final contents of the included-file set of a run. -/
def runIncluded (env : Env) (assuming : Assuming) : List Mission → List Bytes → List Bytes
  | [], included => included
  | m :: rest, included =>
    runIncluded env assuming rest (collectDeps env assuming m m.dependencies included).2

def finalIncluded (env : Env) (missions : List Mission) (assuming : Assuming) : List Bytes :=
  runIncluded env assuming missions.reverse []

/-- A per-mission sub-archive is small enough that its 32-bit local-header
offsets and 16-bit name lengths are stored exactly (the spec's documented
Zip64 limitation: beyond these bounds the fixed-width fields overflow). -/
def subFit (entries : List (Bytes × Bytes)) : Bool :=
  decide ((localPart entries).length < 2 ^ 32) &&
    entries.all fun e => decide (e.1.length < 2 ^ 16)

/-- `subFit` along a (already reversed) mission list. -/
def planFit (env : Env) (assuming : Assuming) : List Mission → List Bytes → Bool
  | [], _ => true
  | m :: rest, included =>
    let res := collectDeps env assuming m m.dependencies included
    subFit res.1 && planFit env assuming rest res.2

/-- Every per-mission sub-archive of the run stays within the 32-bit/16-bit
field widths. -/
def zipSizesOk (env : Env) (missions : List Mission) (assuming : Assuming) : Bool :=
  planFit env assuming missions.reverse []

/-! ### Lemmas about the byte primitives -/

theorem readU16le_append (a b : Bytes) (k : Nat) :
    readU16le (a ++ b) (a.length + k) = readU16le b k := by
  have h : a.length + k + 2 ≤ (a ++ b).length ↔ k + 2 ≤ b.length := by
    simp [List.length_append]; omega
  unfold readU16le
  rw [List.drop_append]
  by_cases hk : k + 2 ≤ b.length
  · rw [if_pos (h.mpr hk), if_pos hk]
  · rw [if_neg (fun hh => hk (h.mp hh)), if_neg hk]

theorem readU32le_append (a b : Bytes) (k : Nat) :
    readU32le (a ++ b) (a.length + k) = readU32le b k := by
  have h : a.length + k + 4 ≤ (a ++ b).length ↔ k + 4 ≤ b.length := by
    simp [List.length_append]; omega
  unfold readU32le
  rw [List.drop_append]
  by_cases hk : k + 4 ≤ b.length
  · rw [if_pos (h.mpr hk), if_pos hk]
  · rw [if_neg (fun hh => hk (h.mp hh)), if_neg hk]

theorem readU32be_append (a b : Bytes) (k : Nat) :
    readU32be (a ++ b) (a.length + k) = readU32be b k := by
  have h : a.length + k + 4 ≤ (a ++ b).length ↔ k + 4 ≤ b.length := by
    simp [List.length_append]; omega
  unfold readU32be
  rw [List.drop_append]
  by_cases hk : k + 4 ≤ b.length
  · rw [if_pos (h.mpr hk), if_pos hk]
  · rw [if_neg (fun hh => hk (h.mp hh)), if_neg hk]

theorem readU16le_here (x : Nat) (t : Bytes) :
    readU16le (u16le x ++ t) 0 = some (x % 2 ^ 16) := by
  unfold readU16le
  rw [if_pos (by simp)]
  have h2 : ((u16le x ++ t).drop 0).take 2 = u16le x := by simp [u16le]
  rw [h2, leVal_u16le]

theorem readU32le_here (x : Nat) (t : Bytes) :
    readU32le (u32le x ++ t) 0 = some (x % 2 ^ 32) := by
  unfold readU32le
  rw [if_pos (by simp)]
  have h4 : ((u32le x ++ t).drop 0).take 4 = u32le x := by simp [u32le]
  rw [h4, leVal_u32le]

theorem writeU32le_append (a b : Bytes) (k v : Nat) :
    writeU32le (a ++ b) (a.length + k) v = a ++ writeU32le b k v := by
  unfold writeU32le
  rw [List.take_append, Nat.add_assoc, List.drop_append (k + 4)]
  simp

theorem writeU32le_here (x : Nat) (t : Bytes) (v : Nat) :
    writeU32le (u32le x ++ t) 0 v = u32le v ++ t := by
  unfold writeU32le
  rw [List.take_zero, show (0 + 4 : Nat) = (u32le x).length from rfl, List.drop_left]
  simp

theorem writeU32le_length (buf : Bytes) (pos v : Nat) (h : pos + 4 ≤ buf.length) :
    (writeU32le buf pos v).length = buf.length := by
  unfold writeU32le
  simp [List.length_append, List.length_take, List.length_drop]
  omega

/-! ### Lengths of the archive pieces -/

@[simp] theorem localHeader_length (n c : Bytes) : (localHeader n c).length = 30 := by
  simp [localHeader]

@[simp] theorem localEntry_length (n c : Bytes) :
    (localEntry n c).length = 30 + n.length + c.length := by
  simp [localEntry]; omega

@[simp] theorem cdPre_length (c : Bytes) : (cdPre c).length = 28 := by
  simp [cdPre]

@[simp] theorem cdEntry_length (n c : Bytes) (off : Nat) :
    (cdEntry n c off).length = 46 + n.length := by
  simp [cdEntry]; omega

@[simp] theorem eocdRecord_length (a b c : Nat) : (eocdRecord a b c).length = 22 := by
  simp [eocdRecord]

theorem localPart_append (xs ys : List (Bytes × Bytes)) :
    localPart (xs ++ ys) = localPart xs ++ localPart ys := by
  induction xs with
  | nil => rfl
  | cons e rest ih => cases e; simp [localPart, ih]

theorem cdPart_append (xs ys : List (Bytes × Bytes)) (base : Nat) :
    cdPart (xs ++ ys) base = cdPart xs base ++ cdPart ys (base + (localPart xs).length) := by
  induction xs generalizing base with
  | nil => simp [cdPart, localPart]
  | cons e rest ih =>
    cases e with
    | mk n c =>
      show cdEntry n c base ++ cdPart (rest ++ ys) (base + (localEntry n c).length) = _
      rw [ih]
      simp [cdPart, localPart, List.append_assoc, Nat.add_assoc]

/-- Cost that one entry adds to the archive: local entry plus its central
directory entry. -/
def entryCost (e : Bytes × Bytes) : Nat :=
  e.2.length + 0x1e + 0x2e + e.1.length * 2

theorem cdPart_length (xs : List (Bytes × Bytes)) (base : Nat) :
    (cdPart xs base).length = (xs.map fun e => 46 + e.1.length).sum := by
  induction xs generalizing base with
  | nil => rfl
  | cons e rest ih => cases e; simp [cdPart, ih]

theorem localPart_length (xs : List (Bytes × Bytes)) :
    (localPart xs).length = (xs.map fun e => 30 + e.1.length + e.2.length).sum := by
  induction xs with
  | nil => rfl
  | cons e rest ih => cases e; simp [localPart, ih]

theorem cost_sum (xs : List (Bytes × Bytes)) :
    (localPart xs).length + (cdPart xs 0).length = (xs.map entryCost).sum := by
  induction xs with
  | nil => rfl
  | cons e rest ih =>
    cases e
    simp only [localPart_length, cdPart_length, List.map_cons, List.sum_cons, entryCost] at ih ⊢
    omega

theorem buildZip_length (es : List (Bytes × Bytes)) :
    (buildZip es).length = (localPart es).length + (cdPart es 0).length + 22 := by
  simp [buildZip]; omega

/-! ### The backward scan -/

/-- The signature comparison performed by the scan at position `i`. -/
def magicAt (buf : Bytes) (i : Nat) : Prop := readU32be buf i = some 0x504b0506

instance (buf : Bytes) (i : Nat) : Decidable (magicAt buf i) := by
  unfold magicAt; infer_instance

theorem scanEOCD_eq_some (buf : Bytes) (start j : Nat) :
    scanEOCD buf start = some j ↔
      j ≤ start ∧ magicAt buf j ∧ ∀ t, j < t → t ≤ start → ¬ magicAt buf t := by
  induction start with
  | zero =>
    unfold scanEOCD
    by_cases h : readU32be buf 0 = some 0x504b0506
    · rw [if_pos h]
      constructor
      · intro hj
        obtain rfl : j = 0 := by injection hj with hj; omega
        exact ⟨le_refl 0, h, fun t ht ht0 => by omega⟩
      · rintro ⟨hj, -, -⟩
        obtain rfl : j = 0 := by omega
        rfl
    · rw [if_neg h]
      constructor
      · intro hj; cases hj
      · rintro ⟨hj, hm, -⟩
        obtain rfl : j = 0 := by omega
        exact absurd hm h
  | succ i ih =>
    unfold scanEOCD
    by_cases h : readU32be buf (i + 1) = some 0x504b0506
    · rw [if_pos h]
      constructor
      · intro hj
        obtain rfl : j = i + 1 := by injection hj with hj; omega
        exact ⟨le_refl _, h, fun t ht ht1 => by omega⟩
      · rintro ⟨hj, hm, hmax⟩
        rcases Nat.lt_or_ge j (i + 1) with hji | hji
        · exact absurd (show magicAt buf (i + 1) from h) (hmax (i + 1) hji (le_refl _))
        · obtain rfl : j = i + 1 := by omega
          rfl
    · rw [if_neg h]
      rw [ih]
      constructor
      · rintro ⟨hj, hm, hmax⟩
        refine ⟨by omega, hm, fun t ht ht1 => ?_⟩
        rcases Nat.lt_or_ge t (i + 1) with ht' | ht'
        · exact hmax t ht (by omega)
        · obtain rfl : t = i + 1 := by omega
          exact h
      · rintro ⟨hj, hm, hmax⟩
        have hji : j ≠ i + 1 := fun hh => h (show readU32be buf (i + 1) = _ from hh ▸ hm)
        exact ⟨by omega, hm, fun t ht ht1 => hmax t ht (by omega)⟩

theorem scanEOCD_eq_none (buf : Bytes) (start : Nat) :
    scanEOCD buf start = Option.none ↔ ∀ t, t ≤ start → ¬ magicAt buf t := by
  induction start with
  | zero =>
    unfold scanEOCD
    by_cases h : readU32be buf 0 = some 0x504b0506
    · rw [if_pos h]
      constructor
      · intro hh; cases hh
      · intro hall
        exact absurd (show magicAt buf 0 from h) (hall 0 (le_refl 0))
    · rw [if_neg h]
      constructor
      · intro _ t ht
        obtain rfl : t = 0 := by omega
        exact h
      · intro _; rfl
  | succ i ih =>
    unfold scanEOCD
    by_cases h : readU32be buf (i + 1) = some 0x504b0506
    · rw [if_pos h]
      constructor
      · intro hh; cases hh
      · intro hall
        exact absurd (show magicAt buf (i + 1) from h) (hall (i + 1) (le_refl _))
    · rw [if_neg h, ih]
      constructor
      · intro hall t ht
        rcases Nat.lt_or_ge t (i + 1) with ht' | ht'
        · exact hall t (by omega)
        · obtain rfl : t = i + 1 := by omega
          exact h
      · intro hall t ht
        exact hall t (by omega)

/-- Start of the end-of-central-directory record inside the builder's
output for the given entries. -/
def realStart (es : List (Bytes × Bytes)) : Nat :=
  (localPart es).length + (cdPart es 0).length

theorem buildZip_drop_realStart (es : List (Bytes × Bytes)) :
    (buildZip es).drop (realStart es) =
      eocdRecord es.length (cdPart es 0).length (localPart es).length := by
  unfold buildZip realStart
  rw [List.append_assoc, List.drop_append, List.drop_left]

theorem buildZip_len (es : List (Bytes × Bytes)) :
    (buildZip es).length = realStart es + 22 := by
  rw [buildZip_length]; rfl

theorem magicAt_realStart (es : List (Bytes × Bytes)) :
    magicAt (buildZip es) (realStart es) := by
  unfold magicAt readU32be
  rw [if_pos (by rw [buildZip_len]; omega), buildZip_drop_realStart]
  have h4 : (eocdRecord es.length (cdPart es 0).length (localPart es).length).take 4 =
      [0x50, 0x4b, 0x05, 0x06] := by
    simp [eocdRecord]
  rw [h4]
  rfl

theorem buildZip_drop_rs_add (es : List (Bytes × Bytes)) (k : Nat) :
    (buildZip es).drop (realStart es + k) =
      (eocdRecord es.length (cdPart es 0).length (localPart es).length).drop k := by
  rw [← buildZip_drop_realStart, List.drop_drop]

theorem not_magicAt_rs1 (es : List (Bytes × Bytes)) :
    ¬ magicAt (buildZip es) (realStart es + 1) := by
  unfold magicAt readU32be
  rw [if_pos (by rw [buildZip_len]; omega), buildZip_drop_rs_add]
  have h4 : ((eocdRecord es.length (cdPart es 0).length (localPart es).length).drop 1).take 4 =
      [0x4b, 0x05, 0x06, 0x00] := by
    simp [eocdRecord, u16le]
  rw [h4]
  intro hh
  injection hh with hh
  exact absurd hh (by decide)

theorem not_magicAt_rs2 (es : List (Bytes × Bytes)) :
    ¬ magicAt (buildZip es) (realStart es + 2) := by
  unfold magicAt readU32be
  rw [if_pos (by rw [buildZip_len]; omega), buildZip_drop_rs_add]
  have h4 : ((eocdRecord es.length (cdPart es 0).length (localPart es).length).drop 2).take 4 =
      [0x05, 0x06, 0x00, 0x00] := by
    simp [eocdRecord, u16le]
  rw [h4]
  intro hh
  injection hh with hh
  exact absurd hh (by decide)

/-- Where the backward scan can stop on a builder archive: at the true end
record, or above it, in which case the subsequent 32-bit read is out of range
and throws. -/
theorem findEOCD_buildZip (es : List (Bytes × Bytes)) (i : Nat)
    (h : findEOCD (buildZip es) = some i) :
    i = realStart es ∨
      (realStart es + 3 ≤ i ∧ readU32le (buildZip es) (i + 16) = Option.none) := by
  unfold findEOCD at h
  rw [if_pos (by rw [buildZip_len]; omega)] at h
  obtain ⟨hle, hm, hmax⟩ := (scanEOCD_eq_some _ _ _).mp h
  have hlen : (buildZip es).length = realStart es + 22 := buildZip_len es
  have hrs : realStart es ≤ i := by
    by_contra h'
    exact hmax (realStart es) (by omega) (by omega) (magicAt_realStart es)
  have hcases : i = realStart es ∨ i = realStart es + 1 ∨ i = realStart es + 2 ∨
      realStart es + 3 ≤ i := by omega
  rcases hcases with rfl | rfl | rfl | h3
  · exact Or.inl rfl
  · exact absurd hm (not_magicAt_rs1 es)
  · exact absurd hm (not_magicAt_rs2 es)
  · refine Or.inr ⟨h3, ?_⟩
    unfold readU32le
    rw [if_neg (by omega)]

/-- The scan always finds a position on a builder archive. -/
theorem findEOCD_buildZip_isSome (es : List (Bytes × Bytes)) :
    ∃ i, findEOCD (buildZip es) = some i := by
  unfold findEOCD
  rw [if_pos (by rw [buildZip_len]; omega)]
  cases hscan : scanEOCD (buildZip es) ((buildZip es).length - 4) with
  | some k => exact ⟨k, rfl⟩
  | none =>
    have hall := (scanEOCD_eq_none _ _).mp hscan
    have := hall (realStart es) (by rw [buildZip_len]; omega)
    exact absurd (magicAt_realStart es) this

/-- Value of the central-directory-offset field read at displacement 16 from
the true end record. -/
theorem read_cdOffset (es : List (Bytes × Bytes))
    (hfit : (localPart es).length < 2 ^ 32) :
    readU32le (buildZip es) (realStart es + 16) = some (localPart es).length := by
  unfold readU32le
  rw [if_pos (by rw [buildZip_len]; omega), buildZip_drop_rs_add]
  have h16 : (eocdRecord es.length (cdPart es 0).length (localPart es).length).drop 16 =
      u32le (localPart es).length ++ u16le 0 := by
    simp [eocdRecord, u16le, u32le]
  rw [h16]
  have h4 : ((u32le (localPart es).length ++ u16le 0).take 4) = u32le (localPart es).length := by
    simp [u32le, u16le]
  rw [h4, leVal_u32le, Nat.mod_eq_of_lt hfit]

theorem buildZip_take_lp (es : List (Bytes × Bytes)) :
    (buildZip es).take (localPart es).length = localPart es := by
  unfold buildZip
  rw [List.append_assoc]
  exact List.take_left _ _

theorem buildZip_cd_slice (es : List (Bytes × Bytes)) :
    ((buildZip es).drop (localPart es).length).take (realStart es - (localPart es).length) =
      cdPart es 0 := by
  unfold buildZip realStart
  rw [List.append_assoc, List.drop_left]
  have h : (localPart es).length + (cdPart es 0).length - (localPart es).length =
      (cdPart es 0).length := by omega
  rw [h]
  exact List.take_left _ _

/-! ### The offset-fixing pass -/

theorem readU16le_at (a t : Bytes) (pos x : Nat) (h : pos = a.length) :
    readU16le (a ++ (u16le x ++ t)) pos = some (x % 2 ^ 16) := by
  subst h
  have hap := readU16le_append a (u16le x ++ t) 0
  rw [Nat.add_zero] at hap
  rw [hap, readU16le_here]

theorem readU32le_at (a t : Bytes) (pos x : Nat) (h : pos = a.length) :
    readU32le (a ++ (u32le x ++ t)) pos = some (x % 2 ^ 32) := by
  subst h
  have hap := readU32le_append a (u32le x ++ t) 0
  rw [Nat.add_zero] at hap
  rw [hap, readU32le_here]

theorem writeU32le_at (a t : Bytes) (pos x v : Nat) (h : pos = a.length) :
    writeU32le (a ++ (u32le x ++ t)) pos v = a ++ (u32le v ++ t) := by
  subst h
  have hap := writeU32le_append a (u32le x ++ t) 0 v
  rw [Nat.add_zero] at hap
  rw [hap, writeU32le_here]

theorem cdEntry_decomp28 (n c : Bytes) (off : Nat) (t : Bytes) :
    cdEntry n c off ++ t =
      cdPre c ++ (u16le n.length ++ (u16le 0 ++ (u16le 0 ++ (u16le 0 ++ (u16le 0 ++
        (u32le 0 ++ (u32le off ++ (n ++ t)))))))) := by
  simp [cdEntry, List.append_assoc]

theorem cdEntry_decomp30 (n c : Bytes) (off : Nat) (t : Bytes) :
    cdEntry n c off ++ t =
      (cdPre c ++ u16le n.length) ++ (u16le 0 ++ (u16le 0 ++ (u16le 0 ++ (u16le 0 ++
        (u32le 0 ++ (u32le off ++ (n ++ t))))))) := by
  simp [cdEntry, List.append_assoc]

theorem cdEntry_decomp32 (n c : Bytes) (off : Nat) (t : Bytes) :
    cdEntry n c off ++ t =
      (cdPre c ++ u16le n.length ++ u16le 0) ++ (u16le 0 ++ (u16le 0 ++ (u16le 0 ++
        (u32le 0 ++ (u32le off ++ (n ++ t)))))) := by
  simp [cdEntry, List.append_assoc]

theorem cdEntry_decomp42 (n c : Bytes) (off : Nat) (t : Bytes) :
    cdEntry n c off ++ t =
      (cdPre c ++ u16le n.length ++ u16le 0 ++ u16le 0 ++ u16le 0 ++ u16le 0 ++ u32le 0) ++
        (u32le off ++ (n ++ t)) := by
  simp [cdEntry, List.append_assoc]

theorem cdEntry_read28 (n c : Bytes) (off : Nat) (t : Bytes) :
    readU16le (cdEntry n c off ++ t) 28 = some (n.length % 2 ^ 16) := by
  rw [cdEntry_decomp28]
  exact readU16le_at _ _ _ _ (by simp)

theorem cdEntry_read30 (n c : Bytes) (off : Nat) (t : Bytes) :
    readU16le (cdEntry n c off ++ t) 30 = some 0 := by
  rw [cdEntry_decomp30]
  have h := readU16le_at (cdPre c ++ u16le n.length)
    (u16le 0 ++ (u16le 0 ++ (u16le 0 ++ (u32le 0 ++ (u32le off ++ (n ++ t)))))) 30 0 (by simp)
  simpa using h

theorem cdEntry_read32 (n c : Bytes) (off : Nat) (t : Bytes) :
    readU16le (cdEntry n c off ++ t) 32 = some 0 := by
  rw [cdEntry_decomp32]
  have h := readU16le_at (cdPre c ++ u16le n.length ++ u16le 0)
    (u16le 0 ++ (u16le 0 ++ (u32le 0 ++ (u32le off ++ (n ++ t))))) 32 0 (by simp)
  simpa using h

theorem cdEntry_read42 (n c : Bytes) (off : Nat) (t : Bytes) :
    readU32le (cdEntry n c off ++ t) 42 = some (off % 2 ^ 32) := by
  rw [cdEntry_decomp42]
  exact readU32le_at _ _ _ _ (by simp)

theorem cdEntry_write42 (n c : Bytes) (off : Nat) (t : Bytes) (v : Nat) :
    writeU32le (cdEntry n c off ++ t) 42 v = cdEntry n c v ++ t := by
  rw [cdEntry_decomp42, writeU32le_at _ _ _ _ _ (by simp), ← cdEntry_decomp42]

theorem patchCDLoop_stop (prior fuel index : Nat) (cd : Bytes) (h : ¬ index < cd.length) :
    patchCDLoop prior (fuel + 1) index cd = some cd := by
  unfold patchCDLoop
  rw [if_neg h]

theorem patchCDLoop_step (prior fuel index : Nat) (cd : Bytes) (v nl el cl : Nat)
    (hlt : index < cd.length)
    (hread : readU32le cd (index + 0x2a) = some v)
    (hr28 : readU16le (writeU32le cd (index + 0x2a) (v + prior)) (index + 0x1c) = some nl)
    (hr30 : readU16le (writeU32le cd (index + 0x2a) (v + prior)) (index + 0x1e) = some el)
    (hr32 : readU16le (writeU32le cd (index + 0x2a) (v + prior)) (index + 0x20) = some cl) :
    patchCDLoop prior (fuel + 1) index cd =
      patchCDLoop prior fuel (index + 0x2e + nl + el + cl)
        (writeU32le cd (index + 0x2a) (v + prior)) := by
  simp only [patchCDLoop]
  rw [if_pos hlt, hread]
  simp only [hr28, hr30, hr32]

theorem patchCDLoop_run (prior : Nat) (entries : List (Bytes × Bytes)) :
    ∀ (base : Nat) (done : Bytes) (fuel : Nat),
      base + (localPart entries).length < 2 ^ 32 →
      (∀ e ∈ entries, e.1.length < 2 ^ 16) →
      (cdPart entries base).length + 1 ≤ fuel →
      patchCDLoop prior fuel done.length (done ++ cdPart entries base) =
        some (done ++ cdPart entries (base + prior)) := by
  induction entries with
  | nil =>
    intro base done fuel _ _ hfuel
    match fuel, hfuel with
    | fuel + 1, _ =>
      rw [patchCDLoop_stop prior fuel done.length _ (by simp [cdPart])]
      simp [cdPart]
  | cons e rest ih =>
    intro base done fuel hfit hnames hfuel
    obtain ⟨n, c⟩ := e
    have hlpcons : (localPart ((n, c) :: rest)).length =
        (localEntry n c).length + (localPart rest).length := by
      show (localEntry n c ++ localPart rest).length = _
      simp
    have hcdlen : (cdPart ((n, c) :: rest) base).length = 46 + n.length +
        (cdPart rest (base + (localEntry n c).length)).length := by
      show (cdEntry n c base ++ _).length = _
      simp
    match fuel, (by omega : (cdPart ((n, c) :: rest) base).length + 1 ≤ fuel) with
    | fuel + 1, hfuel =>
      have hbase : base < 2 ^ 32 := by omega
      have hname : n.length < 2 ^ 16 := hnames (n, c) (by simp)
      have hshape : done ++ cdPart ((n, c) :: rest) base =
          done ++ (cdEntry n c base ++ cdPart rest (base + (localEntry n c).length)) := rfl
      rw [hshape]
      have hread : readU32le
          (done ++ (cdEntry n c base ++ cdPart rest (base + (localEntry n c).length)))
          (done.length + 0x2a) = some base := by
        rw [readU32le_append, cdEntry_read42, Nat.mod_eq_of_lt hbase]
      have hwrite : writeU32le
          (done ++ (cdEntry n c base ++ cdPart rest (base + (localEntry n c).length)))
          (done.length + 0x2a) (base + prior) =
          done ++ (cdEntry n c (base + prior) ++
            cdPart rest (base + (localEntry n c).length)) := by
        rw [writeU32le_append, cdEntry_write42]
      have hr28 : readU16le (writeU32le
          (done ++ (cdEntry n c base ++ cdPart rest (base + (localEntry n c).length)))
          (done.length + 0x2a) (base + prior)) (done.length + 0x1c) = some n.length := by
        rw [hwrite, readU16le_append, cdEntry_read28, Nat.mod_eq_of_lt hname]
      have hr30 : readU16le (writeU32le
          (done ++ (cdEntry n c base ++ cdPart rest (base + (localEntry n c).length)))
          (done.length + 0x2a) (base + prior)) (done.length + 0x1e) = some 0 := by
        rw [hwrite, readU16le_append, cdEntry_read30]
      have hr32 : readU16le (writeU32le
          (done ++ (cdEntry n c base ++ cdPart rest (base + (localEntry n c).length)))
          (done.length + 0x2a) (base + prior)) (done.length + 0x20) = some 0 := by
        rw [hwrite, readU16le_append, cdEntry_read32]
      rw [patchCDLoop_step prior fuel done.length _ base n.length 0 0
        (by simp) hread hr28 hr30 hr32]
      rw [hwrite]
      have hidx : done.length + 0x2e + n.length + 0 + 0 =
          (done ++ cdEntry n c (base + prior)).length := by
        simp only [List.length_append, cdEntry_length]
        omega
      have hre : done ++ (cdEntry n c (base + prior) ++
          cdPart rest (base + (localEntry n c).length)) =
          (done ++ cdEntry n c (base + prior)) ++
            cdPart rest (base + (localEntry n c).length) := by
        rw [List.append_assoc]
      rw [hidx, hre]
      rw [ih (base + (localEntry n c).length) (done ++ cdEntry n c (base + prior)) fuel
        (by omega) (fun e he => hnames e (by simp [he])) (by omega)]
      have harith : base + (localEntry n c).length + prior =
          base + prior + (localEntry n c).length := by omega
      rw [harith]
      show _ = some (done ++ (cdEntry n c (base + prior) ++
        cdPart rest (base + prior + (localEntry n c).length)))
      rw [List.append_assoc]

/-- Patching one mission's central directory, produced by the builder with
local offsets starting at 0, rebases every local-header-offset field by
`prior`. -/
theorem patchCD_cdPart (prior : Nat) (entries : List (Bytes × Bytes))
    (hfit : (localPart entries).length < 2 ^ 32)
    (hnames : ∀ e ∈ entries, e.1.length < 2 ^ 16) :
    patchCD prior (cdPart entries 0) = some (cdPart entries prior) := by
  unfold patchCD
  have h := patchCDLoop_run prior entries 0 [] ((cdPart entries 0).length + 1)
    (by omega) hnames (le_refl _)
  simpa using h

/-! ### The dependency walk -/

/-- A dependency is skipped by the shared guard chain: already included, or
excluded by the active mode. -/
def skipDep (env : Env) (assuming : Assuming) (included : List Bytes) (p : Bytes) : Prop :=
  included.contains p = true ∨
    (assuming = Assuming.gold ∧ env.structureMBGSet.contains (lowerBytes p) = true) ∨
    (assuming = Assuming.platinumquest ∧ env.structurePQSet.contains (lowerBytes p) = true)

instance (env : Env) (assuming : Assuming) (included : List Bytes) (p : Bytes) :
    Decidable (skipDep env assuming included p) := by
  unfold skipDep; infer_instance

theorem collectDeps_cons_skip (env : Env) (a : Assuming) (m : Mission) (dep : Bytes)
    (rest included : List Bytes) (h : skipDep env a included (m.normalizeDependency dep)) :
    collectDeps env a m (dep :: rest) included = collectDeps env a m rest included := by
  simp only [collectDeps]
  by_cases h1 : included.contains (m.normalizeDependency dep) = true
  · rw [if_pos h1]
  · rw [if_neg h1]
    by_cases h2 : a = Assuming.gold ∧
        env.structureMBGSet.contains (lowerBytes (m.normalizeDependency dep)) = true
    · rw [if_pos h2]
    · rw [if_neg h2]
      have h3 : a = Assuming.platinumquest ∧
          env.structurePQSet.contains (lowerBytes (m.normalizeDependency dep)) = true := by
        rcases h with h | h | h
        · exact absurd h h1
        · exact absurd h h2
        · exact h
      rw [if_pos h3]

theorem collectDeps_cons_go (env : Env) (a : Assuming) (m : Mission) (dep : Bytes)
    (rest included : List Bytes) (p : Bytes)
    (h : ¬ skipDep env a included (m.normalizeDependency dep))
    (hfp : m.findPath dep = some p) :
    collectDeps env a m (dep :: rest) included =
      ((m.normalizeDependency dep, env.fsys p) ::
          (collectDeps env a m rest (included ++ [m.normalizeDependency dep])).1,
        (collectDeps env a m rest (included ++ [m.normalizeDependency dep])).2) := by
  simp only [collectDeps]
  rw [if_neg (fun hh => h (Or.inl hh)), if_neg (fun hh => h (Or.inr (Or.inl hh))),
    if_neg (fun hh => h (Or.inr (Or.inr hh))), hfp]

theorem collectDeps_cons_miss (env : Env) (a : Assuming) (m : Mission) (dep : Bytes)
    (rest included : List Bytes)
    (h : ¬ skipDep env a included (m.normalizeDependency dep))
    (hfp : m.findPath dep = Option.none) :
    collectDeps env a m (dep :: rest) included = collectDeps env a m rest included := by
  simp only [collectDeps]
  rw [if_neg (fun hh => h (Or.inl hh)), if_neg (fun hh => h (Or.inr (Or.inl hh))),
    if_neg (fun hh => h (Or.inr (Or.inr hh))), hfp]

theorem estimateDeps_cons_skip (env : Env) (a : Assuming) (m : Mission) (dep : Bytes)
    (rest : List Bytes) (sizes : List Nat) (included : List Bytes)
    (h : skipDep env a included (m.normalizeDependency dep)) :
    estimateDeps env a m (dep :: rest) sizes included =
      estimateDeps env a m rest sizes.tail included := by
  simp only [estimateDeps]
  by_cases h1 : included.contains (m.normalizeDependency dep) = true
  · rw [if_pos h1]
  · rw [if_neg h1]
    by_cases h2 : a = Assuming.gold ∧
        env.structureMBGSet.contains (lowerBytes (m.normalizeDependency dep)) = true
    · rw [if_pos h2]
    · rw [if_neg h2]
      have h3 : a = Assuming.platinumquest ∧
          env.structurePQSet.contains (lowerBytes (m.normalizeDependency dep)) = true := by
        rcases h with h | h | h
        · exact absurd h h1
        · exact absurd h h2
        · exact h
      rw [if_pos h3]

theorem estimateDeps_cons_go (env : Env) (a : Assuming) (m : Mission) (dep : Bytes)
    (rest : List Bytes) (sizes : List Nat) (included : List Bytes)
    (h : ¬ skipDep env a included (m.normalizeDependency dep)) :
    estimateDeps env a m (dep :: rest) sizes included =
      (sizes.headD 0 + 0x1e + 0x2e + (m.normalizeDependency dep).length * 2 +
          (estimateDeps env a m rest sizes.tail
            (included ++ [m.normalizeDependency dep])).1,
        (estimateDeps env a m rest sizes.tail (included ++ [m.normalizeDependency dep])).2) := by
  simp only [estimateDeps]
  rw [if_neg (fun hh => h (Or.inl hh)), if_neg (fun hh => h (Or.inr (Or.inl hh))),
    if_neg (fun hh => h (Or.inr (Or.inr hh)))]

/-- The included set after a mission is the set before it plus the names of
the entries the mission registered, in order. -/
theorem collectDeps_included (env : Env) (a : Assuming) (m : Mission) :
    ∀ (deps included : List Bytes),
      (collectDeps env a m deps included).2 =
        included ++ ((collectDeps env a m deps included).1.map Prod.fst) := by
  intro deps
  induction deps with
  | nil => intro included; simp [collectDeps]
  | cons dep rest ih =>
    intro included
    by_cases hs : skipDep env a included (m.normalizeDependency dep)
    · rw [collectDeps_cons_skip env a m dep rest included hs, ih]
    · cases hfp : m.findPath dep with
      | some p =>
        rw [collectDeps_cons_go env a m dep rest included p hs hfp]
        simp only [List.map_cons]
        rw [ih]
        simp [List.append_assoc]
      | none =>
        rw [collectDeps_cons_miss env a m dep rest included hs hfp, ih]

theorem runIncluded_entriesPlan (env : Env) (a : Assuming) :
    ∀ (msL : List Mission) (inc : List Bytes),
      runIncluded env a msL inc =
        inc ++ ((entriesPlan env a msL inc).flatten.map Prod.fst) := by
  intro msL
  induction msL with
  | nil => intro inc; simp [runIncluded, entriesPlan]
  | cons m rest ih =>
    intro inc
    show runIncluded env a rest (collectDeps env a m m.dependencies inc).2 = _
    rw [ih]
    have hplan : entriesPlan env a (m :: rest) inc =
        (collectDeps env a m m.dependencies inc).1 ::
          entriesPlan env a rest (collectDeps env a m m.dependencies inc).2 := rfl
    rw [hplan, collectDeps_included]
    simp [List.append_assoc]

/-- One central-directory buffer per mission, each rebased by the cumulative
main-part length before it. -/
def cdChunksOf : List (List (Bytes × Bytes)) → Nat → List Bytes
  | [], _ => []
  | es :: rest, prior => cdPart es prior :: cdChunksOf rest (prior + (localPart es).length)

theorem cdChunksOf_flatten : ∀ (plan : List (List (Bytes × Bytes))) (prior : Nat),
    (cdChunksOf plan prior).flatten = cdPart plan.flatten prior := by
  intro plan
  induction plan with
  | nil => intro prior; simp [cdChunksOf, cdPart]
  | cons es rest ih =>
    intro prior
    show cdPart es prior ++ (cdChunksOf rest (prior + (localPart es).length)).flatten = _
    rw [ih]
    show _ = cdPart (es ++ rest.flatten) prior
    rw [cdPart_append]

theorem map_localPart_flatten : ∀ (plan : List (List (Bytes × Bytes))),
    (plan.map localPart).flatten = localPart plan.flatten := by
  intro plan
  induction plan with
  | nil => rfl
  | cons es rest ih =>
    show localPart es ++ (rest.map localPart).flatten = _
    rw [ih]
    show _ = localPart (es ++ rest.flatten)
    rw [localPart_append]

/-! ### Per-mission processing -/

theorem readU32le_le (buf : Bytes) (pos v : Nat) (h : readU32le buf pos = some v) :
    pos + 4 ≤ buf.length := by
  unfold readU32le at h
  by_cases hle : pos + 4 ≤ buf.length
  · exact hle
  · rw [if_neg hle] at h; cases h

theorem patchCDLoop_length (prior : Nat) : ∀ (fuel index : Nat) (cd r : Bytes),
    patchCDLoop prior fuel index cd = some r → r.length = cd.length := by
  intro fuel
  induction fuel with
  | zero =>
    intro index cd r h
    simp only [patchCDLoop] at h
    simp at h
  | succ fuel ih =>
    intro index cd r h
    simp only [patchCDLoop] at h
    split at h
    · rename_i hlt
      split at h
      · rename_i v hread
        split at h
        · rename_i nl el cl h28 h30 h32
          have hle := readU32le_le cd (index + 0x2a) v hread
          have hwl : (writeU32le cd (index + 0x2a) (v + prior)).length = cd.length :=
            writeU32le_length cd (index + 0x2a) (v + prior) hle
          have := ih _ _ _ h
          omega
        · simp at h
      · simp at h
    · rename_i hlt
      injection h with h
      rw [← h]

theorem patchCD_length (prior : Nat) (cd r : Bytes) (h : patchCD prior cd = some r) :
    r.length = cd.length :=
  patchCDLoop_length prior (cd.length + 1) 0 cd r h

/-- What the per-mission step produces when the sub-archive fits the 32-bit
fields: either the structurally described result or an aborted run. -/
theorem processMission_eq (env : Env) (a : Assuming) (st : GenState) (m : Mission)
    (hfit : subFit (collectDeps env a m m.dependencies st.includedFiles).1 = true) :
    processMission env a st m =
      some ([localPart (collectDeps env a m m.dependencies st.includedFiles).1],
        { centralDirectories := st.centralDirectories ++
            [cdPart (collectDeps env a m m.dependencies st.includedFiles).1 st.mainPartLength],
          centralDirectorySizeTotal := st.centralDirectorySizeTotal +
            (cdPart (collectDeps env a m m.dependencies st.includedFiles).1 0).length,
          mainPartLength := st.mainPartLength +
            (localPart (collectDeps env a m m.dependencies st.includedFiles).1).length,
          includedFiles := (collectDeps env a m m.dependencies st.includedFiles).2 }) ∨
    processMission env a st m = Option.none := by
  have hlp : (localPart (collectDeps env a m m.dependencies st.includedFiles).1).length <
      2 ^ 32 := by
    unfold subFit at hfit
    rw [Bool.and_eq_true] at hfit
    exact of_decide_eq_true hfit.1
  have hnm : ∀ e ∈ (collectDeps env a m m.dependencies st.includedFiles).1,
      e.1.length < 2 ^ 16 := by
    unfold subFit at hfit
    rw [Bool.and_eq_true, List.all_eq_true] at hfit
    exact fun e he => of_decide_eq_true (hfit.2 e he)
  obtain ⟨i, hi⟩ := findEOCD_buildZip_isSome (collectDeps env a m m.dependencies st.includedFiles).1
  rcases findEOCD_buildZip _ i hi with rfl | ⟨h3, hnone⟩
  · left
    have hread := read_cdOffset _ hlp
    have hpatch := patchCD_cdPart st.mainPartLength _ hlp hnm
    simp only [processMission]
    rw [hi]
    simp only [hread, buildZip_take_lp, buildZip_cd_slice, hpatch]
  · right
    simp only [processMission]
    rw [hi]
    simp only [hnone]

/-- Shape of a successful per-mission step, without any size assumption: one
main-part chunk is yielded, one central directory buffer of the counted size
is stashed. -/
theorem processMission_shape (env : Env) (a : Assuming) (st : GenState) (m : Mission)
    (chunks : List Bytes) (st' : GenState)
    (hp : processMission env a st m = some (chunks, st')) :
    ∃ mainChunk cdBuf,
      chunks = [mainChunk] ∧
      st'.centralDirectories = st.centralDirectories ++ [cdBuf] ∧
      st'.centralDirectorySizeTotal = st.centralDirectorySizeTotal + cdBuf.length ∧
      st'.mainPartLength = st.mainPartLength + mainChunk.length ∧
      st'.includedFiles = (collectDeps env a m m.dependencies st.includedFiles).2 := by
  simp only [processMission] at hp
  split at hp
  · rename_i hnone
    obtain ⟨i, hi⟩ :=
      findEOCD_buildZip_isSome (collectDeps env a m m.dependencies st.includedFiles).1
    rw [hnone] at hi
    simp at hi
  · rename_i i hfound
    split at hp
    · simp at hp
    · rename_i off hr
      split at hp
      · simp at hp
      · rename_i patched hpt
        simp only [Option.some.injEq, Prod.mk.injEq] at hp
        obtain ⟨hchunks, hst⟩ := hp
        subst hst
        refine ⟨_, patched, hchunks.symm, rfl, ?_, rfl, rfl⟩
        have hl := patchCD_length st.mainPartLength _ _ hpt
        rw [hl]

theorem cdPart_length_base (xs : List (Bytes × Bytes)) (b : Nat) :
    (cdPart xs b).length = (cdPart xs 0).length := by
  rw [cdPart_length, cdPart_length]

/-- Structure of a completed mission loop whose sub-archives all fit: one
main-part chunk per mission, the per-mission central directories rebased by
the prior main-part lengths, and totals that add up over the flattened entry
plan. -/
theorem genLoop_struct (env : Env) (a : Assuming) : ∀ (msL : List Mission) (st : GenState)
    (out : List Bytes) (st' : GenState),
    genLoop env a msL st = some (out, st') →
    planFit env a msL st.includedFiles = true →
    out = (entriesPlan env a msL st.includedFiles).map localPart ∧
    st'.centralDirectories = st.centralDirectories ++
      cdChunksOf (entriesPlan env a msL st.includedFiles) st.mainPartLength ∧
    st'.centralDirectorySizeTotal = st.centralDirectorySizeTotal +
      (cdPart (entriesPlan env a msL st.includedFiles).flatten 0).length ∧
    st'.mainPartLength = st.mainPartLength +
      (localPart (entriesPlan env a msL st.includedFiles).flatten).length ∧
    st'.includedFiles = runIncluded env a msL st.includedFiles := by
  intro msL
  induction msL with
  | nil =>
    intro st out st' h _
    simp only [genLoop, Option.some.injEq, Prod.mk.injEq] at h
    obtain ⟨ho, hs⟩ := h
    subst hs
    simp [ho.symm, entriesPlan, cdChunksOf, cdPart, localPart, runIncluded]
  | cons m rest ih =>
    intro st out st' h hfit
    have hfit' : subFit (collectDeps env a m m.dependencies st.includedFiles).1 = true ∧
        planFit env a rest (collectDeps env a m m.dependencies st.includedFiles).2 = true := by
      have : planFit env a (m :: rest) st.includedFiles =
          (subFit (collectDeps env a m m.dependencies st.includedFiles).1 &&
            planFit env a rest (collectDeps env a m m.dependencies st.includedFiles).2) := rfl
      rw [this, Bool.and_eq_true] at hfit
      exact hfit
    simp only [genLoop] at h
    split at h
    · simp at h
    · rename_i res hpm
      split at h
      · simp at h
      · rename_i res1 hloop
        simp only [Option.some.injEq, Prod.mk.injEq] at h
        obtain ⟨hout, hst2⟩ := h
        subst hst2
        rcases processMission_eq env a st m hfit'.1 with heq | heq
        · rw [heq] at hpm
          have hres : res = ([localPart (collectDeps env a m m.dependencies st.includedFiles).1],
              { centralDirectories := st.centralDirectories ++
                  [cdPart (collectDeps env a m m.dependencies st.includedFiles).1
                    st.mainPartLength],
                centralDirectorySizeTotal := st.centralDirectorySizeTotal +
                  (cdPart (collectDeps env a m m.dependencies st.includedFiles).1 0).length,
                mainPartLength := st.mainPartLength +
                  (localPart (collectDeps env a m m.dependencies st.includedFiles).1).length,
                includedFiles := (collectDeps env a m m.dependencies st.includedFiles).2 }) := by
            injection hpm with hh
            exact hh.symm
          subst hres
          obtain ⟨iout, icds, icdst, impl, iinc⟩ := ih _ res1.1 res1.2 hloop hfit'.2
          dsimp only at iout icds icdst impl iinc
          have hplan : entriesPlan env a (m :: rest) st.includedFiles =
              (collectDeps env a m m.dependencies st.includedFiles).1 ::
                entriesPlan env a rest
                  (collectDeps env a m m.dependencies st.includedFiles).2 := rfl
          rw [hplan]
          refine ⟨?_, ?_, ?_, ?_, ?_⟩
          · rw [← hout, iout]
            rfl
          · rw [icds]
            show _ = st.centralDirectories ++
              (cdPart (collectDeps env a m m.dependencies st.includedFiles).1
                  st.mainPartLength ::
                cdChunksOf (entriesPlan env a rest
                    (collectDeps env a m m.dependencies st.includedFiles).2)
                  (st.mainPartLength +
                    (localPart (collectDeps env a m m.dependencies st.includedFiles).1).length))
            simp [List.append_assoc]
          · rw [icdst]
            show st.centralDirectorySizeTotal +
                (cdPart (collectDeps env a m m.dependencies st.includedFiles).1 0).length +
                  _ = _
            rw [List.flatten_cons, cdPart_append, List.length_append]
            simp only [cdPart_length]
            omega
          · rw [impl]
            show st.mainPartLength +
                (localPart (collectDeps env a m m.dependencies st.includedFiles).1).length +
                  _ = _
            rw [List.flatten_cons, localPart_append, List.length_append]
            omega
          · rw [iinc]
            rfl
        · rw [heq] at hpm
          cases hpm
/-- Headline structure of a completed run whose sub-archives fit: the
emitted chunks are exactly one main part per mission, then the rebased
central directories, then the synthesized end record — and their
concatenation is byte-identical to the one-shot builder archive of the
deduplicated union of entries. -/
theorem generateZip_struct (env : Env) (ms : List Mission) (a : Assuming) (chunks : List Bytes)
    (h : generateZip env ms a = some chunks)
    (hfit : zipSizesOk env ms a = true) :
    chunks = (entriesPlan env a ms.reverse []).map localPart ++
        cdChunksOf (entriesPlan env a ms.reverse []) 0 ++
        [eocdRecord (allEntries env ms a).length (cdPart (allEntries env ms a) 0).length
          (localPart (allEntries env ms a)).length] ∧
    chunks.flatten = buildZip (allEntries env ms a) := by
  simp only [generateZip] at h
  split at h
  · simp at h
  · rename_i res hrun
    obtain ⟨iout, icds, icdst, impl, iinc⟩ :=
      genLoop_struct env a ms.reverse initState res.1 res.2 hrun hfit
    dsimp only [initState] at iout icds icdst impl iinc
    injection h with h
    have hcount : res.2.includedFiles.length = (allEntries env ms a).length := by
      rw [iinc, runIncluded_entriesPlan]
      simp only [List.nil_append, List.length_map, allEntries]
    have hchunks : chunks = (entriesPlan env a ms.reverse []).map localPart ++
        cdChunksOf (entriesPlan env a ms.reverse []) 0 ++
        [eocdRecord (allEntries env ms a).length (cdPart (allEntries env ms a) 0).length
          (localPart (allEntries env ms a)).length] := by
      rw [← h, iout, icds, ← hcount, icdst, impl]
      simp only [List.nil_append, Nat.zero_add]
      rfl
    refine ⟨hchunks, ?_⟩
    rw [hchunks]
    rw [List.append_assoc, List.flatten_append, List.flatten_append]
    rw [map_localPart_flatten, cdChunksOf_flatten]
    show localPart (allEntries env ms a) ++ (cdPart (allEntries env ms a) 0 ++ _) = _
    rw [buildZip]
    simp [List.append_assoc]

/-- Shape of any completed run: one main chunk and one stashed central
directory buffer per mission, with the running totals summing their
lengths. -/
theorem genLoop_shape (env : Env) (a : Assuming) : ∀ (msL : List Mission) (st : GenState)
    (out : List Bytes) (st' : GenState),
    genLoop env a msL st = some (out, st') →
    ∃ newCds : List Bytes,
      out.length = msL.length ∧ newCds.length = msL.length ∧
      st'.centralDirectories = st.centralDirectories ++ newCds ∧
      st'.centralDirectorySizeTotal = st.centralDirectorySizeTotal +
        (newCds.map List.length).sum ∧
      st'.mainPartLength = st.mainPartLength + (out.map List.length).sum ∧
      st'.includedFiles = runIncluded env a msL st.includedFiles := by
  intro msL
  induction msL with
  | nil =>
    intro st out st' h
    simp only [genLoop, Option.some.injEq, Prod.mk.injEq] at h
    obtain ⟨ho, hs⟩ := h
    subst hs
    exact ⟨[], by simp [ho.symm, runIncluded]⟩
  | cons m rest ih =>
    intro st out st' h
    simp only [genLoop] at h
    split at h
    · simp at h
    · rename_i res hpm
      split at h
      · simp at h
      · rename_i res1 hloop
        simp only [Option.some.injEq, Prod.mk.injEq] at h
        obtain ⟨hout, hst2⟩ := h
        subst hst2
        obtain ⟨mainChunk, cdBuf, hres1, hcds, hcdst, hmpl, hinc⟩ :=
          processMission_shape env a st m res.1 res.2 hpm
        obtain ⟨newCds, ilen, iclen, icds, icdst, impl, iinc⟩ :=
          ih res.2 res1.1 res1.2 hloop
        refine ⟨cdBuf :: newCds, ?_, ?_, ?_, ?_, ?_, ?_⟩
        · rw [← hout, hres1]
          simp only [List.length_append, List.length_cons, List.length_nil, ilen]
          omega
        · simp [iclen]
        · rw [icds, hcds]
          simp [List.append_assoc]
        · rw [icdst, hcdst]
          simp only [List.map_cons, List.sum_cons]
          omega
        · rw [impl, hmpl, ← hout, hres1]
          simp only [List.map_append, List.sum_append, List.map_cons, List.sum_cons,
            List.map_nil, List.sum_nil]
          omega
        · rw [iinc, hinc]
          rfl

/-- Shape of any completed `generateZip` run. -/
theorem generateZip_shape (env : Env) (ms : List Mission) (a : Assuming) (chunks : List Bytes)
    (h : generateZip env ms a = some chunks) :
    ∃ mains cds : List Bytes,
      mains.length = ms.length ∧ cds.length = ms.length ∧
      chunks = mains ++ cds ++
        [eocdRecord (finalIncluded env ms a).length ((cds.map List.length).sum)
          ((mains.map List.length).sum)] := by
  simp only [generateZip] at h
  split at h
  · simp at h
  · rename_i res hrun
    obtain ⟨newCds, ilen, iclen, icds, icdst, impl, iinc⟩ :=
      genLoop_shape env a ms.reverse initState res.1 res.2 hrun
    dsimp only [initState] at ilen iclen icds icdst impl iinc
    injection h with h
    refine ⟨res.1, newCds, by simpa using ilen, by simpa using iclen, ?_⟩
    simp only [finalIncluded]
    rw [← h, icds, ← iinc, icdst, impl]
    simp only [List.nil_append, Nat.zero_add]

/-! ### The size estimator -/

/-- Every dependency of the mission resolves, and the cached size aligned
with it equals the byte length of the resolved file. -/
def depSizesOk (env : Env) (m : Mission) : List Bytes → List Nat → Bool
  | [], _ => true
  | dep :: rest, sizes =>
    (match m.findPath dep with
     | some p => sizes.headD 0 == (env.fsys p).length
     | Option.none => false) && depSizesOk env m rest sizes.tail

/-- The mission carries size metadata, every dependency resolves, and the
cached sizes are accurate. -/
def depsOk (env : Env) (m : Mission) : Bool :=
  m.fileSizes.isSome && depSizesOk env m m.dependencies (m.fileSizes.getD [])

theorem estimateDeps_spec (env : Env) (a : Assuming) (m : Mission) :
    ∀ (deps : List Bytes) (sizes : List Nat) (included : List Bytes),
      depSizesOk env m deps sizes = true →
      estimateDeps env a m deps sizes included =
        (((collectDeps env a m deps included).1.map entryCost).sum,
          (collectDeps env a m deps included).2) := by
  intro deps
  induction deps with
  | nil =>
    intro sizes included _
    simp [estimateDeps, collectDeps]
  | cons dep rest ih =>
    intro sizes included hok
    simp only [depSizesOk, Bool.and_eq_true] at hok
    obtain ⟨hh, hth⟩ := hok
    cases hfp : m.findPath dep with
    | none => rw [hfp] at hh; simp at hh
    | some p =>
      rw [hfp] at hh
      have hsz : sizes.headD 0 = (env.fsys p).length := by simpa using hh
      by_cases hs : skipDep env a included (m.normalizeDependency dep)
      · rw [estimateDeps_cons_skip env a m dep rest sizes included hs,
          collectDeps_cons_skip env a m dep rest included hs, ih _ _ hth]
      · rw [estimateDeps_cons_go env a m dep rest sizes included hs,
          collectDeps_cons_go env a m dep rest included p hs hfp, ih _ _ hth]
        simp only [List.map_cons, List.sum_cons, entryCost, hsz]

theorem estimateLoop_spec (env : Env) (a : Assuming) :
    ∀ (msL : List Mission) (included : List Bytes),
      (∀ m ∈ msL, depsOk env m = true) →
      estimateLoop env a msL included =
        (((entriesPlan env a msL included).flatten.map entryCost).sum,
          runIncluded env a msL included) := by
  intro msL
  induction msL with
  | nil =>
    intro included _
    simp [estimateLoop, entriesPlan, runIncluded]
  | cons m rest ih =>
    intro included hall
    have hm := hall m (by simp)
    have hms : depSizesOk env m m.dependencies (m.fileSizes.getD []) = true := by
      unfold depsOk at hm
      rw [Bool.and_eq_true] at hm
      exact hm.2
    simp only [estimateLoop]
    rw [estimateDeps_spec env a m m.dependencies (m.fileSizes.getD []) included hms]
    dsimp only
    rw [ih (collectDeps env a m m.dependencies included).2
      (fun m' hm' => hall m' (List.mem_cons_of_mem m hm'))]
    have hplan : entriesPlan env a (m :: rest) included =
        (collectDeps env a m m.dependencies included).1 ::
          entriesPlan env a rest (collectDeps env a m m.dependencies included).2 := rfl
    rw [hplan]
    have hrun : runIncluded env a (m :: rest) included =
        runIncluded env a rest (collectDeps env a m m.dependencies included).2 := rfl
    rw [hrun, List.flatten_cons, List.map_append, List.sum_append]

/-- The estimator computes exactly the length of the one-shot builder archive
of the deduplicated union of entries, provided all sizes are cached
accurately and every dependency resolves. -/
theorem expectedSize_eq_buildZip (env : Env) (missions : List Mission) (a : Assuming)
    (hall : ∀ m ∈ missions, depsOk env m = true) :
    expectedSizeOf env missions a = (buildZip (allEntries env missions a)).length := by
  unfold expectedSizeOf
  rw [estimateLoop_spec env a missions.reverse []
    (fun m hm => hall m (List.mem_reverse.mp hm))]
  dsimp only
  rw [buildZip_length, cost_sum]
  rfl

/-! ### Claims -/

/-- C8: combining an empty mission list yields exactly one chunk — the
22-byte end-of-central-directory record with both entry counts zero, zero
central directory size and zero central directory offset. -/
theorem claim8_empty_input (env : Env) (a : Assuming) :
    generateZip env [] a = some [eocdRecord 0 0 0] ∧
    eocdRecord 0 0 0 =
      [0x50, 0x4b, 0x05, 0x06, 0, 0, 0, 0, 0, 0, 0, 0, 0, 0, 0, 0, 0, 0, 0, 0, 0, 0] ∧
    (eocdRecord 0 0 0).length = 22 :=
  ⟨rfl, by decide, by decide⟩

/-- C9: a mission with falsy `fileSizes` is filtered out by the
`MissionZipStream` constructor before both size estimation and chunk
generation, so inserting such a mission anywhere changes neither result and
causes no error. -/
theorem claim9_falsy_fileSizes_filtered (env : Env) (a : Assuming)
    (ms1 ms2 : List Mission) (m : Mission) (hm : m.fileSizes = Option.none) :
    streamExpectedSize env (ms1 ++ m :: ms2) a = streamExpectedSize env (ms1 ++ ms2) a ∧
    streamChunks env (ms1 ++ m :: ms2) a = streamChunks env (ms1 ++ ms2) a := by
  have hf : filterMissions (ms1 ++ m :: ms2) = filterMissions (ms1 ++ ms2) := by
    unfold filterMissions
    rw [List.filter_append, List.filter_append, List.filter_cons]
    simp [hm]
  unfold streamExpectedSize streamChunks
  rw [hf]
  exact ⟨rfl, rfl⟩

/-- Witness for C9 at a concrete mission list. -/
def wMission : Mission :=
  { dependencies := [[110]], normalizeDependency := fun d => d,
    findPath := fun _ => some [97], fileSizes := some [3] }

def wMissionNoSizes : Mission :=
  { dependencies := [[112]], normalizeDependency := fun d => d,
    findPath := fun _ => some [98], fileSizes := Option.none }

def wEnv : Env :=
  { fsys := fun p => if p = [97] then [7, 8, 9] else [0], structureMBGSet := [[109]],
    structurePQSet := [] }

theorem claim9_witness :
    wMissionNoSizes.fileSizes = Option.none ∧
    streamExpectedSize wEnv ([wMission] ++ wMissionNoSizes :: []) Assuming.none =
      streamExpectedSize wEnv ([wMission] ++ []) Assuming.none ∧
    streamChunks wEnv ([wMission] ++ wMissionNoSizes :: []) Assuming.none =
      streamChunks wEnv ([wMission] ++ []) Assuming.none :=
  ⟨rfl,
    (claim9_falsy_fileSizes_filtered wEnv Assuming.none [wMission] [] wMissionNoSizes rfl).1,
    (claim9_falsy_fileSizes_filtered wEnv Assuming.none [wMission] [] wMissionNoSizes rfl).2⟩

/-- C1 (counterexample): the claimed equality `expectedSize =
length(concat(chunks))` fails as stated when a dependency does not resolve —
the estimator never consults `findPath` and still counts the dependency,
while the generator silently drops it. -/
def cexEnv : Env :=
  { fsys := fun _ => [1, 2, 3, 4, 5], structureMBGSet := [], structurePQSet := [] }

def cexMissionUnresolvable : Mission :=
  { dependencies := [[110]], normalizeDependency := fun d => d,
    findPath := fun _ => Option.none, fileSizes := some [5] }

theorem claim1_counterexample :
    streamChunks cexEnv [cexMissionUnresolvable] Assuming.none =
      some [[], [], eocdRecord 0 0 0] ∧
    (streamChunks cexEnv [cexMissionUnresolvable] Assuming.none).map
        (fun cs => cs.flatten.length) = some 22 ∧
    streamExpectedSize cexEnv [cexMissionUnresolvable] Assuming.none = 105 ∧
    ¬ (streamChunks cexEnv [cexMissionUnresolvable] Assuming.none).map
        (fun cs => cs.flatten.length) =
      some (streamExpectedSize cexEnv [cexMissionUnresolvable] Assuming.none) := by
  exact ⟨by decide, by decide, by decide, by decide⟩

/-- C1 (amended): for a run that completes, whose per-mission sub-archives
fit the 32-bit/16-bit fields, and in which every dependency of every
retained mission resolves with an accurately cached size, the precomputed
`expectedSize` equals the total byte length of the concatenation of all
chunks. -/
theorem claim1_amended_length_invariant (env : Env) (ms : List Mission) (a : Assuming)
    (chunks : List Bytes)
    (hrun : streamChunks env ms a = some chunks)
    (hfit : zipSizesOk env (filterMissions ms) a = true)
    (hsizes : ∀ m ∈ filterMissions ms, depsOk env m = true) :
    streamExpectedSize env ms a = chunks.flatten.length := by
  unfold streamChunks at hrun
  obtain ⟨-, hflat⟩ := generateZip_struct env (filterMissions ms) a chunks hrun hfit
  unfold streamExpectedSize
  rw [expectedSize_eq_buildZip env (filterMissions ms) a hsizes, hflat]

theorem claim1_amended_witness :
    streamExpectedSize wEnv [wMission] Assuming.none =
      ((streamChunks wEnv [wMission] Assuming.none).getD []).flatten.length := by
  have h : streamChunks wEnv [wMission] Assuming.none =
      some ((streamChunks wEnv [wMission] Assuming.none).getD []) := by decide
  exact claim1_amended_length_invariant wEnv [wMission] Assuming.none _ h (by decide)
    (by decide)

/-- C6: the combiner locates the end record by the backward scan stopping at
the rightmost signature position (the greatest `i` whose big-endian 32-bit
read equals `0x504b0506`), and splits the sub-archive at the little-endian
32-bit offset read at displacement 16 from it: the bytes before the offset
are emitted as the main part and the bytes between the offset and the
signature are kept as the central directory. -/
theorem claim6_backward_scan_and_split :
    (∀ (buf : Bytes) (i : Nat),
      findEOCD buf = some i ↔
        (i + 4 ≤ buf.length ∧ magicAt buf i ∧
          ∀ j, i < j → j + 4 ≤ buf.length → ¬ magicAt buf j)) ∧
    (∀ (env : Env) (a : Assuming) (st : GenState) (m : Mission) (chunks : List Bytes)
        (st' : GenState),
      processMission env a st m = some (chunks, st') →
      ∃ i off,
        findEOCD (buildZip (collectDeps env a m m.dependencies st.includedFiles).1) =
          some i ∧
        readU32le (buildZip (collectDeps env a m m.dependencies st.includedFiles).1)
          (i + 16) = some off ∧
        chunks =
          [(buildZip (collectDeps env a m m.dependencies st.includedFiles).1).take off] ∧
        st'.centralDirectorySizeTotal = st.centralDirectorySizeTotal +
          (((buildZip (collectDeps env a m m.dependencies st.includedFiles).1).drop
            off).take (i - off)).length) := by
  constructor
  · intro buf i
    unfold findEOCD
    by_cases h4 : 4 ≤ buf.length
    · rw [if_pos h4, scanEOCD_eq_some]
      constructor
      · rintro ⟨hle, hm, hmax⟩
        exact ⟨by omega, hm, fun j hj hj4 => hmax j hj (by omega)⟩
      · rintro ⟨hle, hm, hmax⟩
        exact ⟨by omega, hm, fun t ht ht4 => hmax t ht (by omega)⟩
    · rw [if_neg h4]
      constructor
      · intro hh; cases hh
      · rintro ⟨hle, -, -⟩
        omega
  · intro env a st m chunks st' hp
    simp only [processMission] at hp
    split at hp
    · rename_i hnone
      obtain ⟨i, hi⟩ :=
        findEOCD_buildZip_isSome (collectDeps env a m m.dependencies st.includedFiles).1
      rw [hnone] at hi
      simp at hi
    · rename_i i hfound
      split at hp
      · simp at hp
      · rename_i off hr
        split at hp
        · simp at hp
        · rename_i patched hpt
          simp only [Option.some.injEq, Prod.mk.injEq] at hp
          obtain ⟨hchunks, hst⟩ := hp
          subst hst
          exact ⟨i, off, hfound, hr, hchunks.symm, rfl⟩

theorem claim6_witness :
    findEOCD (buildZip []) = some 0 ∧ 0 + 4 ≤ (buildZip []).length ∧
      magicAt (buildZip []) 0 := by
  refine ⟨?_, by decide, by decide⟩
  refine (claim6_backward_scan_and_split.1 (buildZip []) 0).mpr ⟨by decide, by decide, ?_⟩
  intro j hj hj4
  have h22 : (buildZip []).length = 22 := by decide
  rw [h22] at hj4
  have hup : j ≤ 18 := by omega
  interval_cases j <;> decide

/-! ### Field decodes of the synthesized end record -/

theorem eocd_read0 (cnt cs off : Nat) :
    readU32be (eocdRecord cnt cs off) 0 = some 0x504b0506 := by
  unfold readU32be
  rw [if_pos (by simp)]
  have h4 : ((eocdRecord cnt cs off).drop 0).take 4 = [0x50, 0x4b, 0x05, 0x06] := by
    simp [eocdRecord]
  rw [h4]
  rfl

theorem eocd_read4 (cnt cs off : Nat) : readU16le (eocdRecord cnt cs off) 4 = some 0 := by
  have hd : eocdRecord cnt cs off =
      [0x50, 0x4b, 0x05, 0x06] ++ (u16le 0 ++ (u16le 0 ++ (u16le cnt ++ (u16le cnt ++
        (u32le cs ++ (u32le off ++ u16le 0)))))) := by
    simp [eocdRecord, List.append_assoc]
  rw [hd]
  have hr := readU16le_at [0x50, 0x4b, 0x05, 0x06]
    (u16le 0 ++ (u16le cnt ++ (u16le cnt ++ (u32le cs ++ (u32le off ++ u16le 0))))) 4 0
    (by decide)
  simpa using hr

theorem eocd_read6 (cnt cs off : Nat) : readU16le (eocdRecord cnt cs off) 6 = some 0 := by
  have hd : eocdRecord cnt cs off =
      ([0x50, 0x4b, 0x05, 0x06] ++ u16le 0) ++ (u16le 0 ++ (u16le cnt ++ (u16le cnt ++
        (u32le cs ++ (u32le off ++ u16le 0))))) := by
    simp [eocdRecord, List.append_assoc]
  rw [hd]
  have hr := readU16le_at ([0x50, 0x4b, 0x05, 0x06] ++ u16le 0)
    (u16le cnt ++ (u16le cnt ++ (u32le cs ++ (u32le off ++ u16le 0)))) 6 0 (by simp)
  simpa using hr

theorem eocd_read8 (cnt cs off : Nat) :
    readU16le (eocdRecord cnt cs off) 8 = some (cnt % 2 ^ 16) := by
  have hd : eocdRecord cnt cs off =
      ([0x50, 0x4b, 0x05, 0x06] ++ u16le 0 ++ u16le 0) ++ (u16le cnt ++ (u16le cnt ++
        (u32le cs ++ (u32le off ++ u16le 0)))) := by
    simp [eocdRecord, List.append_assoc]
  rw [hd]
  exact readU16le_at _ _ _ _ (by simp)

theorem eocd_read10 (cnt cs off : Nat) :
    readU16le (eocdRecord cnt cs off) 10 = some (cnt % 2 ^ 16) := by
  have hd : eocdRecord cnt cs off =
      ([0x50, 0x4b, 0x05, 0x06] ++ u16le 0 ++ u16le 0 ++ u16le cnt) ++ (u16le cnt ++
        (u32le cs ++ (u32le off ++ u16le 0))) := by
    simp [eocdRecord, List.append_assoc]
  rw [hd]
  exact readU16le_at _ _ _ _ (by simp)

theorem eocd_read12 (cnt cs off : Nat) :
    readU32le (eocdRecord cnt cs off) 12 = some (cs % 2 ^ 32) := by
  have hd : eocdRecord cnt cs off =
      ([0x50, 0x4b, 0x05, 0x06] ++ u16le 0 ++ u16le 0 ++ u16le cnt ++ u16le cnt) ++
        (u32le cs ++ (u32le off ++ u16le 0)) := by
    simp [eocdRecord, List.append_assoc]
  rw [hd]
  exact readU32le_at _ _ _ _ (by simp)

theorem eocd_read16 (cnt cs off : Nat) :
    readU32le (eocdRecord cnt cs off) 16 = some (off % 2 ^ 32) := by
  have hd : eocdRecord cnt cs off =
      ([0x50, 0x4b, 0x05, 0x06] ++ u16le 0 ++ u16le 0 ++ u16le cnt ++ u16le cnt ++
        u32le cs) ++ (u32le off ++ u16le 0) := by
    simp [eocdRecord, List.append_assoc]
  rw [hd]
  exact readU32le_at _ _ _ _ (by simp)

theorem eocd_read20 (cnt cs off : Nat) : readU16le (eocdRecord cnt cs off) 20 = some 0 := by
  have hd : eocdRecord cnt cs off =
      ([0x50, 0x4b, 0x05, 0x06] ++ u16le 0 ++ u16le 0 ++ u16le cnt ++ u16le cnt ++
        u32le cs ++ u32le off) ++ (u16le 0 ++ []) := by
    simp [eocdRecord, List.append_assoc]
  rw [hd]
  have hr := readU16le_at ([0x50, 0x4b, 0x05, 0x06] ++ u16le 0 ++ u16le 0 ++ u16le cnt ++
    u16le cnt ++ u32le cs ++ u32le off) [] 20 0 (by simp)
  simpa using hr

/-- The three regions of a completed run, recovered from the chunk list. -/
theorem generateZip_regions (env : Env) (ms : List Mission) (a : Assuming)
    (chunks : List Bytes) (h : generateZip env ms a = some chunks) :
    ∃ mains cds : List Bytes,
      mains.length = ms.length ∧ cds.length = ms.length ∧
      chunks.take ms.length = mains ∧
      (chunks.drop ms.length).take ms.length = cds ∧
      chunks.drop (2 * ms.length) =
        [eocdRecord (finalIncluded env ms a).length ((cds.map List.length).sum)
          ((mains.map List.length).sum)] ∧
      chunks.getLast? =
        some (eocdRecord (finalIncluded env ms a).length ((cds.map List.length).sum)
          ((mains.map List.length).sum)) ∧
      chunks.length = 2 * ms.length + 1 := by
  obtain ⟨mains, cds, hm, hc, hch⟩ := generateZip_shape env ms a chunks h
  have hmc : mains.length = cds.length := by omega
  refine ⟨mains, cds, hm, hc, ?_, ?_, ?_, ?_, ?_⟩
  · rw [hch, ← hm, List.append_assoc]
    exact List.take_left _ _
  · rw [hch, ← hm, List.append_assoc, List.drop_left, hmc]
    exact List.take_left _ _
  · rw [hch, List.append_assoc]
    have h2 : 2 * ms.length = mains.length + cds.length := by omega
    rw [h2, List.drop_append, List.drop_left]
  · rw [hch]
    exact List.getLast?_concat _
  · rw [hch]
    simp only [List.length_append, List.length_cons, List.length_nil]
    omega

/-- C4: every completed run ends with exactly one synthesized 22-byte
end-of-central-directory record: signature, zero disk fields, both entry
counts equal to the final included-file-set size, the total byte size of the
emitted central-directory buffers, a central-directory offset equal to the
cumulative length of the emitted main-part chunks, and a zero comment
length (field equalities exact whenever the values fit their widths). -/
theorem claim4_end_record (env : Env) (ms : List Mission) (a : Assuming)
    (chunks : List Bytes)
    (h : generateZip env ms a = some chunks)
    (hcnt : (finalIncluded env ms a).length < 2 ^ 16)
    (hcd : (((chunks.drop ms.length).take ms.length).map List.length).sum < 2 ^ 32)
    (hmp : ((chunks.take ms.length).map List.length).sum < 2 ^ 32) :
    chunks.length = 2 * ms.length + 1 ∧
    ∃ E, chunks.drop (2 * ms.length) = [E] ∧
      E = eocdRecord (finalIncluded env ms a).length
          (((chunks.drop ms.length).take ms.length).map List.length).sum
          ((chunks.take ms.length).map List.length).sum ∧
      E.length = 22 ∧
      readU32be E 0 = some 0x504b0506 ∧
      readU16le E 4 = some 0 ∧
      readU16le E 6 = some 0 ∧
      readU16le E 8 = some (finalIncluded env ms a).length ∧
      readU16le E 10 = some (finalIncluded env ms a).length ∧
      readU32le E 12 =
        some (((chunks.drop ms.length).take ms.length).map List.length).sum ∧
      readU32le E 16 = some ((chunks.take ms.length).map List.length).sum ∧
      readU16le E 20 = some 0 := by
  obtain ⟨mains, cds, hm, hc, htake, hdt, hdrop2, -, hlen⟩ :=
    generateZip_regions env ms a chunks h
  rw [htake] at hmp ⊢
  rw [hdt] at hcd ⊢
  refine ⟨hlen, eocdRecord (finalIncluded env ms a).length ((cds.map List.length).sum)
    ((mains.map List.length).sum), hdrop2, rfl, by simp, eocd_read0 _ _ _,
    eocd_read4 _ _ _, eocd_read6 _ _ _, ?_, ?_, ?_, ?_, eocd_read20 _ _ _⟩
  · rw [eocd_read8, Nat.mod_eq_of_lt hcnt]
  · rw [eocd_read10, Nat.mod_eq_of_lt hcnt]
  · rw [eocd_read12, Nat.mod_eq_of_lt hcd]
  · rw [eocd_read16, Nat.mod_eq_of_lt hmp]

theorem claim4_witness :
    generateZip wEnv [wMission] Assuming.none =
      some [localEntry [110] [7, 8, 9], cdEntry [110] [7, 8, 9] 0, eocdRecord 1 47 34] ∧
    (finalIncluded wEnv [wMission] Assuming.none).length < 2 ^ 16 ∧
    ([localEntry [110] [7, 8, 9], cdEntry [110] [7, 8, 9] 0,
        eocdRecord 1 47 34].drop (2 * [wMission].length)) = [eocdRecord 1 47 34] := by
  refine ⟨by decide, by decide, ?_⟩
  have h := claim4_end_record wEnv [wMission] Assuming.none
    [localEntry [110] [7, 8, 9], cdEntry [110] [7, 8, 9] 0, eocdRecord 1 47 34]
    (by decide) (by decide) (by decide) (by decide)
  obtain ⟨-, E, hdrop, hE, -⟩ := h
  rw [hdrop, hE]
  decide

/-- C10: in the synthesized end record the two entry-count fields hold the
final included-file-set size modulo `2^16`, and the central-directory size
and offset fields hold their true values modulo `2^32`; the run completes
without error even when the true values exceed the field widths. -/
theorem claim10_modular_fields (env : Env) (ms : List Mission) (a : Assuming)
    (chunks : List Bytes) (h : generateZip env ms a = some chunks) :
    ∃ E, chunks.getLast? = some E ∧
      E = eocdRecord (finalIncluded env ms a).length
          (((chunks.drop ms.length).take ms.length).map List.length).sum
          ((chunks.take ms.length).map List.length).sum ∧
      readU16le E 8 = some ((finalIncluded env ms a).length % 2 ^ 16) ∧
      readU16le E 10 = some ((finalIncluded env ms a).length % 2 ^ 16) ∧
      readU32le E 12 =
        some ((((chunks.drop ms.length).take ms.length).map List.length).sum % 2 ^ 32) ∧
      readU32le E 16 = some (((chunks.take ms.length).map List.length).sum % 2 ^ 32) := by
  obtain ⟨mains, cds, hm, hc, htake, hdt, -, hlast, -⟩ :=
    generateZip_regions env ms a chunks h
  rw [htake, hdt]
  exact ⟨_, hlast, rfl, eocd_read8 _ _ _, eocd_read10 _ _ _, eocd_read12 _ _ _,
    eocd_read16 _ _ _⟩

theorem claim10_witness :
    ∃ E, (generateZip wEnv [wMission] Assuming.none).getD [] = [localEntry [110] [7, 8, 9],
        cdEntry [110] [7, 8, 9] 0, eocdRecord 1 47 34] ∧
      [localEntry [110] [7, 8, 9], cdEntry [110] [7, 8, 9] 0,
        eocdRecord 1 47 34].getLast? = some E ∧
      readU16le E 8 = some 1 := by
  obtain ⟨E, hlast, -, h8, -⟩ := claim10_modular_fields wEnv [wMission] Assuming.none
    [localEntry [110] [7, 8, 9], cdEntry [110] [7, 8, 9] 0, eocdRecord 1 47 34] (by decide)
  refine ⟨E, by decide, hlast, ?_⟩
  rw [h8]
  decide

/-- C7 (counterexample): a mission whose only dependency is unresolvable
contributes two chunks (an empty main part and, later, an empty central
directory buffer): the archive-building step is not skipped, so the run
does not consist of the end record alone as the claim requires. -/
theorem claim7_counterexample :
    generateZip cexEnv [cexMissionUnresolvable] Assuming.none =
      some [[], [], eocdRecord 0 0 0] ∧
    some [[], [], eocdRecord 0 0 0] ≠ some ([eocdRecord 0 0 0] : List Bytes) :=
  ⟨by decide, by decide⟩

/-- C7 (amended): a mission whose dependencies are all skipped contributes
no bytes — every total is unchanged — but the archive-building step is not
skipped: an empty sub-archive is still built, one empty main-part chunk is
emitted and one empty central-directory buffer is stashed. -/
theorem claim7_amended_empty_mission (env : Env) (a : Assuming) (st : GenState) (m : Mission)
    (hempty : (collectDeps env a m m.dependencies st.includedFiles).1 = []) :
    processMission env a st m =
      some ([[]],
        { centralDirectories := st.centralDirectories ++ [[]],
          centralDirectorySizeTotal := st.centralDirectorySizeTotal,
          mainPartLength := st.mainPartLength,
          includedFiles := st.includedFiles }) := by
  have hinc : (collectDeps env a m m.dependencies st.includedFiles).2 = st.includedFiles := by
    rw [collectDeps_included, hempty]
    simp
  simp only [processMission, hempty, hinc]
  rw [show findEOCD (buildZip []) = some 0 from by decide]
  simp only [show readU32le (buildZip []) (0 + 16) = some 0 from by decide]
  rw [show ((buildZip []).drop 0).take (0 - 0) = ([] : Bytes) from by decide]
  rw [show patchCD st.mainPartLength [] = some [] from rfl]
  simp

theorem claim7_witness :
    processMission cexEnv Assuming.none initState cexMissionUnresolvable =
      some ([[]],
        { centralDirectories := [] ++ [[]], centralDirectorySizeTotal := 0,
          mainPartLength := 0, includedFiles := [] }) :=
  claim7_amended_empty_mission cexEnv Assuming.none initState cexMissionUnresolvable
    (by decide)

/-- Under mode `'gold'` every registered entry name escapes the base-game
excluded set. -/
theorem collectDeps_names_not_excluded_gold (env : Env) (m : Mission) :
    ∀ (deps included : List Bytes) (q : Bytes),
      q ∈ (collectDeps env Assuming.gold m deps included).1.map Prod.fst →
      env.structureMBGSet.contains (lowerBytes q) = false := by
  intro deps
  induction deps with
  | nil =>
    intro included q hq
    simp [collectDeps] at hq
  | cons dep rest ih =>
    intro included q hq
    by_cases hs : skipDep env Assuming.gold included (m.normalizeDependency dep)
    · rw [collectDeps_cons_skip env Assuming.gold m dep rest included hs] at hq
      exact ih included q hq
    · cases hfp : m.findPath dep with
      | some p =>
        rw [collectDeps_cons_go env Assuming.gold m dep rest included p hs hfp] at hq
        simp only [List.map_cons, List.mem_cons] at hq
        rcases hq with rfl | hq
        · cases hb : env.structureMBGSet.contains
              (lowerBytes (m.normalizeDependency dep)) with
          | false => rfl
          | true => exact absurd (Or.inr (Or.inl ⟨rfl, hb⟩)) hs
        · exact ih _ q hq
      | none =>
        rw [collectDeps_cons_miss env Assuming.gold m dep rest included hs hfp] at hq
        exact ih included q hq

theorem entriesPlan_names_not_excluded_gold (env : Env) :
    ∀ (msL : List Mission) (inc : List Bytes) (q : Bytes),
      q ∈ (entriesPlan env Assuming.gold msL inc).flatten.map Prod.fst →
      env.structureMBGSet.contains (lowerBytes q) = false := by
  intro msL
  induction msL with
  | nil =>
    intro inc q hq
    simp [entriesPlan] at hq
  | cons m rest ih =>
    intro inc q hq
    have hplan : entriesPlan env Assuming.gold (m :: rest) inc =
        (collectDeps env Assuming.gold m m.dependencies inc).1 ::
          entriesPlan env Assuming.gold rest
            (collectDeps env Assuming.gold m m.dependencies inc).2 := rfl
    rw [hplan, List.flatten_cons, List.map_append, List.mem_append] at hq
    rcases hq with hq | hq
    · exact collectDeps_names_not_excluded_gold env m m.dependencies inc q hq
    · exact ih _ q hq

/-- C5: under mode `'gold'` no dependency whose lower-cased canonical path is
in `structureMBGSet` is registered or added to the included-file set, and the
combined output is the builder archive of the registered entries only, so no
such path appears in the output. -/
theorem claim5_gold_exclusion (env : Env) (ms : List Mission) (chunks : List Bytes)
    (h : generateZip env ms Assuming.gold = some chunks)
    (hfit : zipSizesOk env ms Assuming.gold = true)
    (p : Bytes) (hp : env.structureMBGSet.contains (lowerBytes p) = true) :
    p ∉ (allEntries env ms Assuming.gold).map Prod.fst ∧
    p ∉ finalIncluded env ms Assuming.gold ∧
    chunks.flatten = buildZip (allEntries env ms Assuming.gold) := by
  have hnames : p ∉ (allEntries env ms Assuming.gold).map Prod.fst := by
    intro hmem
    have hfalse := entriesPlan_names_not_excluded_gold env ms.reverse [] p hmem
    rw [hp] at hfalse
    cases hfalse
  refine ⟨hnames, ?_, (generateZip_struct env ms Assuming.gold chunks h hfit).2⟩
  unfold finalIncluded
  rw [runIncluded_entriesPlan]
  simp only [List.nil_append]
  exact hnames

def w5Mission : Mission :=
  { dependencies := [[77], [110]], normalizeDependency := fun d => d,
    findPath := fun _ => some [97], fileSizes := some [3, 3] }

theorem claim5_witness :
    [77] ∉ (allEntries wEnv [w5Mission] Assuming.gold).map Prod.fst ∧
    [77] ∉ finalIncluded wEnv [w5Mission] Assuming.gold ∧
    allEntries wEnv [w5Mission] Assuming.gold = [([110], [7, 8, 9])] := by
  have h := claim5_gold_exclusion wEnv [w5Mission]
    ((generateZip wEnv [w5Mission] Assuming.gold).getD []) (by decide) (by decide) [77]
    (by decide)
  exact ⟨h.1, h.2.1, by decide⟩

/-! ### Deduplication and override order -/

/-- Content the dependency walk would register for canonical path `p`: the
resolution of the first dependency normalizing to `p`. -/
def depsWins (env : Env) (m : Mission) (deps : List Bytes) (p : Bytes) : Option Bytes :=
  match deps.find? (fun dep => m.normalizeDependency dep == p) with
  | some dep => (m.findPath dep).map env.fsys
  | Option.none => Option.none

def missionWins (env : Env) (m : Mission) (p : Bytes) : Option Bytes :=
  depsWins env m m.dependencies p

/-- The content that ends up in the archive for canonical path `p`: that of
the first mission in processing order — which is the LATEST mission in the
caller-supplied order — declaring a dependency normalizing to `p`. -/
def winnerContent (env : Env) (missions : List Mission) (p : Bytes) : Option Bytes :=
  missions.reverse.findSome? (fun m => missionWins env m p)

/-- The active mode excludes canonical path `p`. -/
def excludedBy (env : Env) (a : Assuming) (p : Bytes) : Bool :=
  match a with
  | Assuming.none => false
  | Assuming.gold => env.structureMBGSet.contains (lowerBytes p)
  | Assuming.platinumquest => env.structurePQSet.contains (lowerBytes p)

theorem not_skipDep (env : Env) (a : Assuming) (included : List Bytes) (p : Bytes)
    (hex : excludedBy env a p = false) (hni : p ∉ included) :
    ¬ skipDep env a included p := by
  intro hs
  rcases hs with h | ⟨ha, h⟩ | ⟨ha, h⟩
  · exact hni (List.mem_of_elem_eq_true h)
  · subst ha
    rw [show excludedBy env Assuming.gold p =
      env.structureMBGSet.contains (lowerBytes p) from rfl] at hex
    rw [h] at hex
    cases hex
  · subst ha
    rw [show excludedBy env Assuming.platinumquest p =
      env.structurePQSet.contains (lowerBytes p) from rfl] at hex
    rw [h] at hex
    cases hex

/-- Once a canonical path is in the included set, no later dependency walk
registers it again. -/
theorem collectDeps_absent (env : Env) (a : Assuming) (m : Mission) (p : Bytes) :
    ∀ (deps included : List Bytes), p ∈ included →
      p ∉ (collectDeps env a m deps included).1.map Prod.fst := by
  intro deps
  induction deps with
  | nil =>
    intro included _ hmem
    simp [collectDeps] at hmem
  | cons dep rest ih =>
    intro included hp hmem
    by_cases hs : skipDep env a included (m.normalizeDependency dep)
    · rw [collectDeps_cons_skip env a m dep rest included hs] at hmem
      exact ih included hp hmem
    · cases hfp : m.findPath dep with
      | some fp =>
        rw [collectDeps_cons_go env a m dep rest included fp hs hfp] at hmem
        simp only [List.map_cons, List.mem_cons] at hmem
        rcases hmem with rfl | hmem
        · exact hs (Or.inl (List.elem_eq_true_of_mem hp))
        · exact ih _ (List.mem_append_left _ hp) hmem
      | none =>
        rw [collectDeps_cons_miss env a m dep rest included hs hfp] at hmem
        exact ih included hp hmem

theorem entriesPlan_absent (env : Env) (a : Assuming) (p : Bytes) :
    ∀ (msL : List Mission) (inc : List Bytes), p ∈ inc →
      p ∉ (entriesPlan env a msL inc).flatten.map Prod.fst := by
  intro msL
  induction msL with
  | nil =>
    intro inc _ hmem
    simp [entriesPlan] at hmem
  | cons m rest ih =>
    intro inc hp hmem
    have hplan : entriesPlan env a (m :: rest) inc =
        (collectDeps env a m m.dependencies inc).1 ::
          entriesPlan env a rest (collectDeps env a m m.dependencies inc).2 := rfl
    rw [hplan, List.flatten_cons, List.map_append, List.mem_append] at hmem
    rcases hmem with hmem | hmem
    · exact collectDeps_absent env a m p m.dependencies inc hp hmem
    · refine ih _ ?_ hmem
      rw [collectDeps_included]
      exact List.mem_append_left _ hp

/-- One mission's dependency walk settles canonical path `p` exactly as
`depsWins` says: when some dependency normalizing to `p` exists the first
one wins, is registered once, and `p` joins the included set; otherwise `p`
is untouched.  Requires `p` to be not yet included, not excluded by the
mode, and every dependency resolvable. -/
theorem collectDeps_dedup (env : Env) (a : Assuming) (m : Mission) (p : Bytes)
    (hex : excludedBy env a p = false) :
    ∀ (deps included : List Bytes),
      (∀ dep ∈ deps, (m.findPath dep).isSome = true) →
      p ∉ included →
      (((collectDeps env a m deps included).1.map Prod.fst).count p =
        if (depsWins env m deps p).isSome then 1 else 0) ∧
      (∀ c, depsWins env m deps p = some c →
        (p, c) ∈ (collectDeps env a m deps included).1) ∧
      (p ∈ (collectDeps env a m deps included).2 ↔
        (depsWins env m deps p).isSome = true) := by
  intro deps
  induction deps with
  | nil =>
    intro included _ hp
    refine ⟨by simp [collectDeps, depsWins], by simp [depsWins], ?_⟩
    simp only [collectDeps, depsWins, List.find?_nil]
    simpa using hp
  | cons dep rest ih =>
    intro included hall hp
    have hfp : ∃ fp, m.findPath dep = some fp := by
      have := hall dep (List.mem_cons_self dep rest)
      cases hh : m.findPath dep with
      | some fp => exact ⟨fp, rfl⟩
      | none => rw [hh] at this; cases this
    obtain ⟨fp, hfp⟩ := hfp
    by_cases hbeq : (m.normalizeDependency dep == p) = true
    · have hnp : m.normalizeDependency dep = p := eq_of_beq hbeq
      have hwin : depsWins env m (dep :: rest) p = some (env.fsys fp) := by
        unfold depsWins
        rw [@List.find?_cons_of_pos Bytes (fun d => m.normalizeDependency d == p) dep rest
          hbeq]
        show Option.map env.fsys (m.findPath dep) = some (env.fsys fp)
        rw [hfp]
        rfl
      have hns : ¬ skipDep env a included (m.normalizeDependency dep) := by
        rw [hnp]
        exact not_skipDep env a included p hex hp
      rw [collectDeps_cons_go env a m dep rest included fp hns hfp, hwin]
      simp only [hnp]
      have habs : p ∉ (collectDeps env a m rest (included ++ [p])).1.map Prod.fst :=
        collectDeps_absent env a m p rest _
          (List.mem_append_right _ (List.mem_singleton.mpr rfl))
      refine ⟨?_, ?_, ?_⟩
      · simp only [List.map_cons, Option.isSome_some, List.count_cons_self,
          List.count_eq_zero.mpr habs]
        simp
      · intro c hc
        injection hc with hc
        subst hc
        exact List.mem_cons_self _ _
      · simp only [Option.isSome_some, iff_true]
        rw [collectDeps_included]
        exact List.mem_append_left _
          (List.mem_append_right _ (List.mem_singleton.mpr rfl))
    · have hbeq' : (m.normalizeDependency dep == p) = false := by
        cases hb : (m.normalizeDependency dep == p) with
        | true => exact absurd hb hbeq
        | false => rfl
      have hnp : m.normalizeDependency dep ≠ p := ne_of_beq_false hbeq'
      have hwin : depsWins env m (dep :: rest) p = depsWins env m rest p := by
        unfold depsWins
        rw [List.find?_cons_of_neg _ (by simp [hbeq'])]
      have hallr : ∀ d ∈ rest, (m.findPath d).isSome = true :=
        fun d hd => hall d (List.mem_cons_of_mem dep hd)
      by_cases hs : skipDep env a included (m.normalizeDependency dep)
      · rw [collectDeps_cons_skip env a m dep rest included hs, hwin]
        exact ih included hallr hp
      · rw [collectDeps_cons_go env a m dep rest included fp hs hfp, hwin]
        have hp' : p ∉ included ++ [m.normalizeDependency dep] := by
          intro hh
          rcases List.mem_append.mp hh with hh | hh
          · exact hp hh
          · exact hnp (List.mem_singleton.mp hh).symm
        obtain ⟨ihc, ihm, ihi⟩ := ih (included ++ [m.normalizeDependency dep]) hallr hp'
        refine ⟨?_, ?_, ?_⟩
        · rw [← ihc]
          simp only [List.map_cons]
          exact List.count_cons_of_ne (Ne.symm hnp) _
        · intro c hc
          exact List.mem_cons_of_mem _ (ihm c hc)
        · exact ihi

/-- Across the whole (already reversed) mission loop: canonical path `p`
appears exactly once among the registered entries when some mission declares
it, with the content of the first such mission in processing order. -/
theorem entriesPlan_dedup (env : Env) (a : Assuming) (p : Bytes)
    (hex : excludedBy env a p = false) :
    ∀ (msL : List Mission) (inc : List Bytes),
      (∀ m ∈ msL, ∀ dep ∈ m.dependencies, (m.findPath dep).isSome = true) →
      p ∉ inc →
      (((entriesPlan env a msL inc).flatten.map Prod.fst).count p =
        if (msL.findSome? (fun m => missionWins env m p)).isSome then 1 else 0) ∧
      (∀ c, msL.findSome? (fun m => missionWins env m p) = some c →
        (p, c) ∈ (entriesPlan env a msL inc).flatten) ∧
      (p ∈ runIncluded env a msL inc ↔
        (msL.findSome? (fun m => missionWins env m p)).isSome = true) := by
  intro msL
  induction msL with
  | nil =>
    intro inc _ hp
    refine ⟨by simp [entriesPlan, List.findSome?_nil], by simp [List.findSome?_nil], ?_⟩
    simp only [List.findSome?_nil, Option.isSome_none, runIncluded]
    simpa using hp
  | cons m rest ih =>
    intro inc hall hp
    obtain ⟨mc, mm, mi⟩ :=
      collectDeps_dedup env a m p hex m.dependencies inc (hall m (by simp)) hp
    have hplan : entriesPlan env a (m :: rest) inc =
        (collectDeps env a m m.dependencies inc).1 ::
          entriesPlan env a rest (collectDeps env a m m.dependencies inc).2 := rfl
    have hrun : runIncluded env a (m :: rest) inc =
        runIncluded env a rest (collectDeps env a m m.dependencies inc).2 := rfl
    have hallr : ∀ m' ∈ rest, ∀ dep ∈ m'.dependencies, (m'.findPath dep).isSome = true :=
      fun m' hm' => hall m' (List.mem_cons_of_mem m hm')
    cases hw : missionWins env m p with
    | some c =>
      have hfs : List.findSome? (fun m => missionWins env m p) (m :: rest) = some c := by
        rw [List.findSome?_cons, hw]
      have hpin : p ∈ (collectDeps env a m m.dependencies inc).2 := by
        apply mi.mpr
        show (missionWins env m p).isSome = true
        rw [hw]
        rfl
      refine ⟨?_, ?_, ?_⟩
      · rw [hplan, List.flatten_cons, List.map_append, List.count_append, hfs]
        have h0 : (((entriesPlan env a rest
            (collectDeps env a m m.dependencies inc).2).flatten.map Prod.fst).count p) = 0 :=
          List.count_eq_zero.mpr (entriesPlan_absent env a p rest _ hpin)
        rw [h0, mc]
        rw [show missionWins env m p = depsWins env m m.dependencies p from rfl] at hw
        rw [hw]
        rfl
      · intro c' hc'
        rw [hfs] at hc'
        injection hc' with hc'
        subst hc'
        rw [hplan, List.flatten_cons]
        apply List.mem_append_left
        exact mm c (by rw [show missionWins env m p =
          depsWins env m m.dependencies p from rfl] at hw; exact hw)
      · rw [hrun, hfs]
        simp only [Option.isSome_some, iff_true]
        rw [runIncluded_entriesPlan]
        exact List.mem_append_left _ hpin
    | none =>
      have hfs : List.findSome? (fun m => missionWins env m p) (m :: rest) =
          List.findSome? (fun m => missionWins env m p) rest := by
        rw [List.findSome?_cons, hw]
      have hpout : p ∉ (collectDeps env a m m.dependencies inc).2 := by
        intro hh
        have hcon := mi.mp hh
        rw [show missionWins env m p = depsWins env m m.dependencies p from rfl] at hw
        rw [hw] at hcon
        cases hcon
      obtain ⟨ic, im, ii⟩ := ih (collectDeps env a m m.dependencies inc).2 hallr hpout
      have hc0 : (((collectDeps env a m m.dependencies inc).1.map Prod.fst).count p) = 0 := by
        rw [mc]
        rw [show missionWins env m p = depsWins env m m.dependencies p from rfl] at hw
        rw [hw]
        rfl
      refine ⟨?_, ?_, ?_⟩
      · rw [hplan, List.flatten_cons, List.map_append, List.count_append, hfs, hc0, ic,
          Nat.zero_add]
      · intro c' hc'
        rw [hfs] at hc'
        rw [hplan, List.flatten_cons]
        exact List.mem_append_right _ (im c' hc')
      · rw [hrun, hfs]
        exact ii

/-- C2 (counterexample): with two missions both declaring the same canonical
path, the archive keeps the content of the mission that is LATEST in the
caller-supplied order (processed first by the reverse loop), not the
earliest.  Mission A (earliest) resolves the path to content `[1]`, mission
B (latest) to `[2]`; the single archive entry carries `[2]`. -/
def cexEnv2 : Env :=
  { fsys := fun p => if p = [65] then [1] else [2], structureMBGSet := [],
    structurePQSet := [] }

def cexMissionA : Mission :=
  { dependencies := [[100]], normalizeDependency := fun d => d,
    findPath := fun _ => some [65], fileSizes := some [1] }

def cexMissionB : Mission :=
  { dependencies := [[100]], normalizeDependency := fun d => d,
    findPath := fun _ => some [66], fileSizes := some [1] }

theorem claim2_counterexample :
    allEntries cexEnv2 [cexMissionA, cexMissionB] Assuming.none = [([100], [2])] ∧
    (generateZip cexEnv2 [cexMissionA, cexMissionB] Assuming.none).map List.flatten =
      some (buildZip [([100], [2])]) ∧
    (cexMissionA.findPath [100]).map cexEnv2.fsys = some [1] ∧
    (([100], [1]) : Bytes × Bytes) ∉
      allEntries cexEnv2 [cexMissionA, cexMissionB] Assuming.none :=
  ⟨by decide, by decide, by decide, by decide⟩

/-- C2 (amended): when two or more missions declare dependencies normalizing
to the same canonical path, the combined archive contains exactly one entry
for that path, and that entry's content belongs to the mission that is
LATEST in the caller-supplied order among those declaring it (the first one
processed by the reverse loop) — provided the run completes, the
sub-archives fit the field widths, every dependency resolves and the path is
not excluded by the active mode. -/
theorem claim2_amended_override_order (env : Env) (ms : List Mission) (a : Assuming)
    (chunks : List Bytes) (p c : Bytes)
    (h : generateZip env ms a = some chunks)
    (hfit : zipSizesOk env ms a = true)
    (hres : ∀ m ∈ ms, ∀ dep ∈ m.dependencies, (m.findPath dep).isSome = true)
    (hex : excludedBy env a p = false)
    (hwin : winnerContent env ms p = some c) :
    ((allEntries env ms a).map Prod.fst).count p = 1 ∧
    (p, c) ∈ allEntries env ms a ∧
    chunks.flatten = buildZip (allEntries env ms a) := by
  obtain ⟨dc, dm, -⟩ := entriesPlan_dedup env a p hex ms.reverse []
    (fun m hm => hres m (List.mem_reverse.mp hm)) (by simp)
  have hcount : ((allEntries env ms a).map Prod.fst).count p = 1 := by
    show (((entriesPlan env a ms.reverse []).flatten.map Prod.fst).count p) = 1
    rw [dc]
    unfold winnerContent at hwin
    rw [hwin]
    rfl
  refine ⟨hcount, ?_, (generateZip_struct env ms a chunks h hfit).2⟩
  exact dm c hwin

theorem claim2_witness :
    ((allEntries cexEnv2 [cexMissionA, cexMissionB] Assuming.none).map Prod.fst).count
        [100] = 1 ∧
    (([100], [2]) : Bytes × Bytes) ∈ allEntries cexEnv2 [cexMissionA, cexMissionB]
      Assuming.none := by
  have h := claim2_amended_override_order cexEnv2 [cexMissionA, cexMissionB] Assuming.none
    ((generateZip cexEnv2 [cexMissionA, cexMissionB] Assuming.none).getD []) [100] [2]
    (by decide) (by decide) (by decide) (by decide) (by decide)
  exact ⟨h.1, h.2.1⟩

/-! ### Central directory offsets point at the matching local headers -/

theorem entriesPlan_length (env : Env) (a : Assuming) :
    ∀ (msL : List Mission) (inc : List Bytes),
      (entriesPlan env a msL inc).length = msL.length := by
  intro msL
  induction msL with
  | nil => intro inc; rfl
  | cons m rest ih =>
    intro inc
    show (_ :: entriesPlan env a rest _).length = _
    simp [ih]

theorem cdChunksOf_length : ∀ (plan : List (List (Bytes × Bytes))) (prior : Nat),
    (cdChunksOf plan prior).length = plan.length := by
  intro plan
  induction plan with
  | nil => intro prior; rfl
  | cons es rest ih =>
    intro prior
    show (cdPart es prior :: cdChunksOf rest _).length = _
    simp [ih]

theorem list_split_at (A : List (Bytes × Bytes)) (k : Nat) (h : k < A.length) :
    A = A.take k ++ (A.get ⟨k, h⟩ :: A.drop (k + 1)) := by
  rw [show A.get ⟨k, h⟩ = A[k] from rfl, ← List.drop_eq_getElem_cons h,
    List.take_append_drop]

theorem localPart_take_le (A : List (Bytes × Bytes)) (k : Nat) :
    (localPart (A.take k)).length ≤ (localPart A).length := by
  conv_rhs => rw [← List.take_append_drop k A]
  rw [localPart_append, List.length_append]
  omega

theorem buildZip_assoc (A : List (Bytes × Bytes)) :
    buildZip A = (localPart A ++ cdPart A 0) ++
      eocdRecord A.length (cdPart A 0).length (localPart A).length := rfl

/-- The 32-bit read at byte `0x2a` of the `k`-th central directory entry of
the builder archive recovers the `k`-th local header offset exactly, as long
as the local region fits 32 bits. -/
theorem buildZip_cd_offset_read (A : List (Bytes × Bytes)) (k : Nat) (h : k < A.length)
    (n c : Bytes) (hAk : A.get ⟨k, h⟩ = (n, c))
    (hglobal : (localPart A).length < 2 ^ 32) :
    readU32le (buildZip A)
        ((localPart A).length + (cdPart (A.take k) 0).length + 0x2a) =
      some (localPart (A.take k)).length := by
  have hsplit : A = A.take k ++ ((n, c) :: A.drop (k + 1)) := by
    rw [← hAk]
    exact list_split_at A k h
  have hcd : cdPart A 0 = cdPart (A.take k) 0 ++
      (cdEntry n c (0 + (localPart (A.take k)).length) ++
        cdPart (A.drop (k + 1))
          (0 + (localPart (A.take k)).length + (localEntry n c).length)) := by
    conv_lhs => rw [hsplit]
    rw [cdPart_append]
    rfl
  have key : ∀ t : Bytes,
      readU32le ((localPart A ++ cdPart A 0) ++ t)
          ((localPart A).length + (cdPart (A.take k) 0).length + 0x2a) =
        some ((0 + (localPart (A.take k)).length) % 2 ^ 32) := by
    intro t
    conv_lhs => rw [hcd]
    have hre : (localPart A ++ (cdPart (A.take k) 0 ++
        (cdEntry n c (0 + (localPart (A.take k)).length) ++
          cdPart (A.drop (k + 1))
            (0 + (localPart (A.take k)).length + (localEntry n c).length)))) ++ t =
        (localPart A ++ cdPart (A.take k) 0) ++
          (cdEntry n c (0 + (localPart (A.take k)).length) ++
            (cdPart (A.drop (k + 1))
              (0 + (localPart (A.take k)).length + (localEntry n c).length) ++ t)) := by
      simp [List.append_assoc]
    rw [hre]
    have hpos : (localPart A).length + (cdPart (A.take k) 0).length + 0x2a =
        (localPart A ++ cdPart (A.take k) 0).length + 0x2a := by
      simp
    rw [hpos, readU32le_append, cdEntry_read42]
  rw [buildZip_assoc, key]
  rw [Nat.zero_add, Nat.mod_eq_of_lt (lt_of_le_of_lt (localPart_take_le A k) hglobal)]

/-- At the `k`-th local header offset of the builder archive lies exactly the
`k`-th local entry (header, matching file name, data). -/
theorem buildZip_local_at (A : List (Bytes × Bytes)) (k : Nat) (h : k < A.length)
    (n c : Bytes) (hAk : A.get ⟨k, h⟩ = (n, c)) :
    ((buildZip A).drop (localPart (A.take k)).length).take (localEntry n c).length =
      localEntry n c := by
  have hsplit : A = A.take k ++ ((n, c) :: A.drop (k + 1)) := by
    rw [← hAk]
    exact list_split_at A k h
  have hlp : localPart A =
      localPart (A.take k) ++ (localEntry n c ++ localPart (A.drop (k + 1))) := by
    conv_lhs => rw [hsplit]
    rw [localPart_append]
    rfl
  have key : ∀ t : Bytes,
      (((localPart A ++ cdPart A 0) ++ t).drop (localPart (A.take k)).length).take
          (localEntry n c).length = localEntry n c := by
    intro t
    have hre : (localPart A ++ cdPart A 0) ++ t =
        localPart (A.take k) ++ (localEntry n c ++
          (localPart (A.drop (k + 1)) ++ (cdPart A 0 ++ t))) := by
      conv_lhs => rw [hlp]
      simp [List.append_assoc]
    rw [hre, List.drop_left]
    have hre2 : localEntry n c ++ (localPart (A.drop (k + 1)) ++ (cdPart A 0 ++ t)) =
        localEntry n c ++ (localPart (A.drop (k + 1)) ++ (cdPart A 0 ++ t)) := rfl
    exact List.take_left _ _
  rw [buildZip_assoc]
  exact key _

/-- C3: the emitted central-directory buffers are the builder's central
directories rebased by the cumulative length of the previously emitted main
parts; the offset-fixing pass adds `priorLocalBytes` to the 32-bit field at
byte `0x2a` of each entry, advancing with stride `0x2e` plus the name,
extra-field and comment lengths read at bytes `0x1c`, `0x1e`, `0x20`;
consequently, in the combined output, each central directory entry's
recorded offset points at the local file entry of the same file. -/
theorem claim3_offset_rebasing (env : Env) (ms : List Mission) (a : Assuming)
    (chunks : List Bytes)
    (h : generateZip env ms a = some chunks)
    (hfit : zipSizesOk env ms a = true)
    (hglobal : (localPart (allEntries env ms a)).length < 2 ^ 32) :
    (chunks.drop ms.length).take ms.length =
      cdChunksOf (entriesPlan env a ms.reverse []) 0 ∧
    (∀ (entries : List (Bytes × Bytes)) (prior : Nat),
      (localPart entries).length < 2 ^ 32 →
      (∀ e ∈ entries, e.1.length < 2 ^ 16) →
      patchCD prior (cdPart entries 0) = some (cdPart entries prior)) ∧
    (∀ (k : Nat) (hk : k < (allEntries env ms a).length),
      readU32le chunks.flatten
          ((localPart (allEntries env ms a)).length +
            (cdPart ((allEntries env ms a).take k) 0).length + 0x2a) =
        some (localPart ((allEntries env ms a).take k)).length ∧
      (chunks.flatten.drop
          (localPart ((allEntries env ms a).take k)).length).take
          (localEntry ((allEntries env ms a).get ⟨k, hk⟩).1
            ((allEntries env ms a).get ⟨k, hk⟩).2).length =
        localEntry ((allEntries env ms a).get ⟨k, hk⟩).1
          ((allEntries env ms a).get ⟨k, hk⟩).2) := by
  obtain ⟨hch, hflat⟩ := generateZip_struct env ms a chunks h hfit
  refine ⟨?_, fun entries prior h32 h16 => patchCD_cdPart prior entries h32 h16, ?_⟩
  · rw [hch]
    have hlen1 : ((entriesPlan env a ms.reverse []).map localPart).length = ms.length := by
      rw [List.length_map, entriesPlan_length]
      exact List.length_reverse ms
    have hleq : ((entriesPlan env a ms.reverse []).map localPart).length =
        (cdChunksOf (entriesPlan env a ms.reverse []) 0).length := by
      rw [hlen1, cdChunksOf_length, entriesPlan_length]
      exact (List.length_reverse ms).symm
    rw [← hlen1, List.append_assoc, List.drop_left, hleq]
    exact List.take_left _ _
  · intro k hk
    rw [hflat]
    constructor
    · exact buildZip_cd_offset_read (allEntries env ms a) k hk _ _ rfl hglobal
    · exact buildZip_local_at (allEntries env ms a) k hk _ _ rfl

theorem claim3_witness :
    0 < (allEntries wEnv [wMission] Assuming.none).length ∧
    readU32le ((generateZip wEnv [wMission] Assuming.none).getD []).flatten
        ((localPart (allEntries wEnv [wMission] Assuming.none)).length +
          (cdPart ((allEntries wEnv [wMission] Assuming.none).take 0) 0).length + 0x2a) =
      some (localPart ((allEntries wEnv [wMission] Assuming.none).take 0)).length := by
  have hk : 0 < (allEntries wEnv [wMission] Assuming.none).length := by decide
  have h := claim3_offset_rebasing wEnv [wMission] Assuming.none
    ((generateZip wEnv [wMission] Assuming.none).getD []) (by decide) (by decide)
    (by decide)
  exact ⟨hk, (h.2.2 0 hk).1⟩

end Marbleland
